import Mathlib

/-! # Distributed recommendation cluster: partitioner, worker engine, aggregator

A shallow embedding of the Go sources

* `src/v1/Cluster/server/server.go` (partitioner, availability prober, dispatch loop),
* `src/v1/Cluster/client/client.go` (worker engine: co-occurrence scores, min-max scaling,
  prediction),
* `src/v2/cluster/server/server.go` (aggregator: average, sort, truncate).

Modelling conventions.

* A Go `map[string]V` is a list of key/value entries. The order of the list is the order in
  which a `range` statement visits the entries; Go leaves that order unspecified, so results are
  stated for every order (two `range` statements over one map are taken to visit it in the same
  order). A map read from Go has pairwise distinct keys (`GoMap.WF`).
* A Go `float64` is `F64`: the IEEE special values `+Inf`, `-Inf`, `NaN` are explicit and follow
  the IEEE rules; a finite value is carried as the rational it denotes. The result of an
  arithmetic operation on finite values is the exact rational result rounded to the nearest
  binary64 value, ties to even, with gradual underflow and overflow to an infinity
  (`F64.round64`). The two zeros are identified: Go's `==` does not tell them apart, and the
  modelled code never divides by a negative zero.
* A Go run-time panic is an `Except.error` carrying the kind of panic.
-/

namespace TFConcurrente

/-! ## Go maps -/

/-- A Go `map[string]V`, as its entries in one traversal order. -/
abbrev GoMap (V : Type) := List (String × V)

namespace GoMap

variable {V : Type}

/-- The keys of the map, in traversal order. -/
def keys (m : GoMap V) : List String := m.map Prod.fst

/-- A map read `m[k]` with the comma-ok form: `none` when the key is absent. -/
def get? : GoMap V → String → Option V
  | [], _ => none
  | (k', v) :: rest, k => if k' = k then some v else get? rest k

/-- The assignment `m[k] = v`: replaces the value of an existing key, adds a new entry
otherwise. -/
def set : GoMap V → String → V → GoMap V
  | [], k, v => [(k, v)]
  | (k', v') :: rest, k, v => if k' = k then (k', v) :: rest else (k', v') :: set rest k v

/-- Keys of a Go map are pairwise distinct. -/
def WF (m : GoMap V) : Prop := m.keys.Nodup

instance (m : GoMap V) : Decidable m.WF := by
  unfold WF; infer_instance

end GoMap

/-! ## Floating point numbers -/

/-- A Go `float64`: a finite value (the rational it denotes), or one of the IEEE special
values. -/
inductive F64 where
  | fin (q : ℚ)
  | posInf
  | negInf
  | nan

/-- Equality of two `F64` values is decided on the numerators and denominators of finite
values. -/
instance : DecidableEq F64 := fun x y =>
  match x, y with
  | .fin a, .fin b =>
    if h : a.num = b.num ∧ a.den = b.den then isTrue (by rw [Rat.ext h.1 h.2])
    else isFalse (fun e => h (by cases e; exact ⟨rfl, rfl⟩))
  | .posInf, .posInf => isTrue rfl
  | .negInf, .negInf => isTrue rfl
  | .nan, .nan => isTrue rfl
  | .fin _, .posInf => isFalse (fun e => by cases e)
  | .fin _, .negInf => isFalse (fun e => by cases e)
  | .fin _, .nan => isFalse (fun e => by cases e)
  | .posInf, .fin _ => isFalse (fun e => by cases e)
  | .posInf, .negInf => isFalse (fun e => by cases e)
  | .posInf, .nan => isFalse (fun e => by cases e)
  | .negInf, .fin _ => isFalse (fun e => by cases e)
  | .negInf, .posInf => isFalse (fun e => by cases e)
  | .negInf, .nan => isFalse (fun e => by cases e)
  | .nan, .fin _ => isFalse (fun e => by cases e)
  | .nan, .posInf => isFalse (fun e => by cases e)
  | .nan, .negInf => isFalse (fun e => by cases e)

namespace F64

/-- The power `2 ^ e` for an integer exponent. -/
def pow2 (e : Int) : ℚ :=
  if 0 ≤ e then ((1 <<< e.toNat : Nat) : ℚ) else 1 / ((1 <<< (-e).toNat : Nat) : ℚ)

/-- Rounding of a rational to the nearest integer, a tie going to the even one. -/
def roundHalfEven (t : ℚ) : Int :=
  let f := Rat.floor t
  let r := t - f
  if r < 1 / 2 then f
  else if 1 / 2 < r then f + 1
  else if f % 2 = 0 then f else f + 1

/-- Binary search for the exponent of `a` among the `2 ^ k` integers from `lo` on: the
greatest `e` of that range with `2 ^ e ≤ a`, and `lo` when there is none. -/
def findExp (a : ℚ) : Nat → Int → Int
  | 0, lo => lo
  | k + 1, lo =>
    if pow2 (lo + ((1 <<< k : Nat) : Int)) ≤ a then findExp a k (lo + ((1 <<< k : Nat) : Int))
    else findExp a k lo

/-- The binary64 exponent of a positive rational `a`: the `e` with `2 ^ e ≤ a < 2 ^ (e + 1)`,
kept within -1022 (the exponent of the subnormal numbers) and 1025 (beyond the overflow
threshold). -/
def expOf (a : ℚ) : Int := findExp a 11 (-1022)

/-- The magnitude of the binary64 value nearest to the positive rational `a`, before the
overflow test: 53 significant bits, so the spacing is `2 ^ (e - 52)` at exponent `e`, and
`2 ^ -1074` for the subnormal numbers. -/
def roundMag (a : ℚ) : ℚ :=
  let ulp := pow2 (expOf a - 52)
  (roundHalfEven (a / ulp) : ℚ) * ulp

/-- The binary64 value of an exact result `q`: round to nearest, ties to even; a magnitude that
rounds to `2 ^ 1024` or more is an infinity. -/
def round64 (q : ℚ) : F64 :=
  if q = 0 then fin 0
  else if 0 < q then
    (if pow2 1024 ≤ roundMag q then posInf else fin (roundMag q))
  else
    (if pow2 1024 ≤ roundMag (-q) then negInf else fin (-roundMag (-q)))

/-- The constant `0` and the zero value of `float64`. -/
def zero : F64 := fin 0

/-- Go `x + y`. -/
def add : F64 → F64 → F64
  | fin a, fin b => round64 (a + b)
  | nan, _ => nan
  | _, nan => nan
  | posInf, negInf => nan
  | negInf, posInf => nan
  | posInf, _ => posInf
  | _, posInf => posInf
  | negInf, _ => negInf
  | _, negInf => negInf

/-- Go `-x`. -/
def neg : F64 → F64
  | fin a => fin (-a)
  | posInf => negInf
  | negInf => posInf
  | nan => nan

/-- Go `x - y`. -/
def sub (x y : F64) : F64 := add x (neg y)

/-- The infinity with the sign of `q`, `NaN` for `q = 0`: the value of `Inf * q`. -/
def infTimes (q : ℚ) : F64 :=
  if 0 < q then posInf else if q < 0 then negInf else nan

/-- Go `x * y`. -/
def mul : F64 → F64 → F64
  | fin a, fin b => round64 (a * b)
  | nan, _ => nan
  | _, nan => nan
  | posInf, fin b => infTimes b
  | negInf, fin b => infTimes (-b)
  | fin a, posInf => infTimes a
  | fin a, negInf => infTimes (-a)
  | posInf, posInf => posInf
  | negInf, negInf => posInf
  | posInf, negInf => negInf
  | negInf, posInf => negInf

/-- Go `x / y`. A finite non-zero value over zero is an infinity, `0 / 0` and `Inf / Inf` are
`NaN`, a finite value over an infinity is `0`. -/
def div : F64 → F64 → F64
  | fin a, fin b => if b = 0 then infTimes a else round64 (a / b)
  | nan, _ => nan
  | _, nan => nan
  | fin _, posInf => fin 0
  | fin _, negInf => fin 0
  | posInf, fin b => if 0 ≤ b then posInf else negInf
  | negInf, fin b => if 0 ≤ b then negInf else posInf
  | posInf, posInf => nan
  | posInf, negInf => nan
  | negInf, posInf => nan
  | negInf, negInf => nan

/-- Go `x < y`: false as soon as one side is `NaN`. -/
def lt : F64 → F64 → Bool
  | fin a, fin b => decide (a < b)
  | nan, _ => false
  | _, nan => false
  | negInf, negInf => false
  | negInf, _ => true
  | _, negInf => false
  | posInf, _ => false
  | fin _, posInf => true

/-- Go `x > y`. -/
def gt (x y : F64) : Bool := lt y x

/-- The value is a number other than `NaN` and the infinities. -/
def isFinite : F64 → Bool
  | fin _ => true
  | _ => false

/-- The value is one a `float64` can hold: a finite value is a binary64 number, that is, it is
its own rounding. -/
def isFloat64 : F64 → Bool
  | fin q => decide (round64 q = fin q)
  | _ => true

end F64

/-- The user-item matrix `map[string]map[string]float64`, also the type of a partition and of
a similarity matrix. -/
abbrev Matrix := GoMap (GoMap F64)

/-- The record `Result` of the three programs. -/
structure Result where
  ProductID : String
  Stars : F64
  Category : String
  deriving DecidableEq

/-- The run-time panics the modelled code can raise. -/
inductive RuntimePanic where
  | makesliceLenOutOfRange
  | indexOutOfRange
  | integerDivideByZero
  | sliceBoundsOutOfRange
  deriving DecidableEq

/-! ## Partitioner (`src/v1/Cluster/server/server.go`) -/

/-- The loop `for user, items := range matrix` of `partitionUserItemMatrix`, with the slice
`partitions` and the counter `i` as state. -/
def partitionLoop (numPartitions : Int) :
    GoMap (GoMap F64) → List Matrix → Int → Except RuntimePanic (List Matrix)
  | [], partitions, _ => .ok partitions
  | (user, items) :: rest, partitions, i =>
    if i < 0 ∨ (partitions.length : Int) ≤ i then .error .indexOutOfRange
    else if numPartitions = 0 then .error .integerDivideByZero
    else partitionLoop numPartitions rest
      (partitions.modify (fun p => p.set user items) i.toNat) ((i + 1).tmod numPartitions)

/-- The function `partitionUserItemMatrix(matrix, numPartitions)`: `make` of a slice of
`numPartitions` empty maps, then the round-robin loop over the traversal of `matrix`. -/
def partitionUserItemMatrix (matrix : Matrix) (numPartitions : Int) :
    Except RuntimePanic (List Matrix) :=
  if numPartitions < 0 then .error .makesliceLenOutOfRange
  else partitionLoop numPartitions matrix (List.replicate numPartitions.toNat []) 0

/-- Lookup of user `u` in partition number `j`. -/
def slotGet (parts : List Matrix) (j : Nat) (u : String) : Option (GoMap F64) :=
  (parts.getD j []).get? u

/-! ## Availability prober and dispatch loop (`src/v1/Cluster/server/server.go`) -/

/-- The function `checkClientsAvailability(clients)`. The outcome of `net.DialTimeout` on an
address is the parameter `dial` (`true` when `err == nil`). -/
def checkClientsAvailability (dial : String → Bool) : List String → List String
  | [] => []
  | client :: rest =>
    if dial client then client :: checkClientsAvailability dial rest
    else checkClientsAvailability dial rest

/-- The loop `for i, clientAddress := range availableClients` of `main`: the arguments
`(clientAddress, partitions[i])` of the goroutine started at every iteration, from index `i`
on. -/
def dispatchLoop (partitions : List Matrix) :
    List String → Nat → Except RuntimePanic (List (String × Matrix))
  | [], _ => .ok []
  | clientAddress :: rest, i =>
    match partitions[i]? with
    | none => .error .indexOutOfRange
    | some partition =>
      match dispatchLoop partitions rest (i + 1) with
      | .error e => .error e
      | .ok sent => .ok ((clientAddress, partition) :: sent)

/-- Lines 54 to 75 of `main`: partition the matrix into `len(clients)` partitions, probe the
clients, start one exchange per available client. -/
def mainDispatch (clients : List String) (dial : String → Bool) (userItemMatrix : Matrix) :
    Except RuntimePanic (List (String × Matrix)) :=
  match partitionUserItemMatrix userItemMatrix (clients.length : Int) with
  | .error e => .error e
  | .ok partitions => dispatchLoop partitions (checkClientsAvailability dial clients) 0

/-! ## Worker engine (`src/v1/Cluster/client/client.go`) -/

/-- The entry `m[i][j]` of a nested map, `none` when `i` or `j` is absent. -/
def entry (m : Matrix) (i j : String) : Option F64 :=
  (m.get? i).bind (fun row => row.get? j)

/-- The statement `similarities[i][j] += x`: the map `similarities[i]` (present, by the
statement before the inner loop) gets `j` bound to its old value, or the zero value when `j` is
absent, plus `x`. -/
def addTo (similarities : Matrix) (i j : String) (x : F64) : Matrix :=
  let row := (similarities.get? i).getD []
  similarities.set i (row.set j (F64.add ((row.get? j).getD F64.zero) x))

/-- The loop `for j, ratingJ := range items` of `calculateCosineSimilarities`. -/
def cosineInner (i : String) (ratingI : F64) (items : GoMap F64) (similarities : Matrix) :
    Matrix :=
  items.foldl
    (fun sims e => if i = e.1 then sims else addTo sims i e.1 (F64.mul ratingI e.2))
    similarities

/-- The loop `for i, ratingI := range items` of `calculateCosineSimilarities`, over the
entries `visit` of the row `items`. -/
def cosineRow (items : GoMap F64) (visit : GoMap F64) (similarities : Matrix) : Matrix :=
  visit.foldl
    (fun sims e =>
      cosineInner e.1 e.2 items (if (sims.get? e.1).isSome then sims else sims.set e.1 []))
    similarities

/-- The function `calculateCosineSimilarities(partition)`. -/
def calculateCosineSimilarities (partition : Matrix) : Matrix :=
  partition.foldl (fun sims e => cosineRow e.2 e.2 sims) []

/-- The first loop nest of `scaleSimilitudes`: the pair `(minSim, maxSim)`, from
`(+Inf, -Inf)`. -/
def minMaxSim (similarities : Matrix) : F64 × F64 :=
  similarities.foldl
    (fun acc e =>
      e.2.foldl
        (fun mm s =>
          (if F64.lt s.2 mm.1 then s.2 else mm.1, if F64.gt s.2 mm.2 then s.2 else mm.2))
        acc)
    (F64.posInf, F64.negInf)

/-- The expression `(similarity - minSim) / (maxSim - minSim)`. -/
def scaleValue (minSim maxSim similarity : F64) : F64 :=
  F64.div (F64.sub similarity minSim) (F64.sub maxSim minSim)

/-- The function `scaleSimilitudes(similarities)`: the second loop nest binds `i` to a fresh
map and fills it with the scaled entries of `similarities[i]`. -/
def scaleSimilitudes (similarities : Matrix) : Matrix :=
  let mm := minMaxSim similarities
  similarities.foldl
    (fun scaled e =>
      scaled.set e.1
        (e.2.foldl (fun row s => row.set s.1 (scaleValue mm.1 mm.2 s.2)) []))
    []

/-- The loop `for similarProduct, similarity := range similarities[productID]` of
`predictRatings`; a read of an absent `productID` gives a nil map, visited zero times. -/
def predictInner (similarities : Matrix) (productID : String) (rating : F64)
    (results : GoMap Result) : GoMap Result :=
  ((similarities.get? productID).getD []).foldl
    (fun res s => res.set s.1 ⟨s.1, F64.mul s.2 rating, "unknown"⟩)
    results

/-- The map `results` of `predictRatings` after the loop nest over the partition. -/
def predictResults (similarities partition : Matrix) : GoMap Result :=
  partition.foldl
    (fun res e => e.2.foldl (fun res p => predictInner similarities p.1 p.2 res) res)
    []

/-- The function `predictRatings(similarities, partition)`: the values of the map `results`, in
its traversal order. -/
def predictRatings (similarities partition : Matrix) : List Result :=
  (predictResults similarities partition).map Prod.snd

/-! ## Aggregator (`src/v2/cluster/server/server.go`) -/

/-- The comparison passed to `sort.Slice` in `processCluster`: `a.Stars > b.Stars`. -/
def starsGreater (a b : Result) : Bool := F64.gt a.Stars b.Stars

/-- Insertion of `x` before the first element it is not less than, for `sortSlice`. -/
def insertSlice (less : Result → Result → Bool) (x : Result) : List Result → List Result
  | [] => [x]
  | y :: ys => if less y x then y :: insertSlice less x ys else x :: y :: ys

/-- The library call `sort.Slice(s, less)`, taken as an insertion sort (the library promises a
sorted permutation, not a stable one). -/
def sortSlice (less : Result → Result → Bool) : List Result → List Result
  | [] => []
  | x :: xs => insertSlice less x (sortSlice less xs)

/-- Lines 98 to 106 of `processCluster`: sort by descending stars, lower `maxResults` to the
number of results, return the slice expression `finalResults[:maxResults]`. -/
def sortAndTruncate (finalResults : List Result) (maxResults : Int) :
    Except RuntimePanic (List Result) :=
  let sorted := sortSlice starsGreater finalResults
  let maxResults := if maxResults > (sorted.length : Int) then (sorted.length : Int) else maxResults
  if maxResults < 0 then .error .sliceBoundsOutOfRange
  else .ok (sorted.take maxResults.toNat)

/-! ## Specification-side notions -/

/-- The products `rating[i] * rating[j]` of the users of the partition who rated both `i` and
`j`, in the order the users are visited. -/
def coRatings (partition : Matrix) (i j : String) : List F64 :=
  partition.filterMap (fun e =>
    match e.2.get? i, e.2.get? j with
    | some a, some b => some (F64.mul a b)
    | _, _ => none)

/-- The values of all entries of a nested map. -/
def entries (m : Matrix) : List F64 :=
  m.flatMap (fun e => e.2.map Prod.snd)

/-- The rows of a nested map have pairwise distinct keys. -/
def RowsWF (m : Matrix) : Prop := ∀ e ∈ m, GoMap.WF e.2

instance (m : Matrix) : Decidable (RowsWF m) := by
  unfold RowsWF; infer_instance

/-- The pairs (item, rating) of a partition in the order `predictRatings` visits them. -/
def ratedItems (partition : Matrix) : List (String × F64) :=
  partition.flatMap (fun e => e.2)

/-- The predictions `scaled[i][j] * rating[i]` for the target `j`, in the order the pairs
(user, `i`) are visited. -/
def predictionsFor (similarities partition : Matrix) (j : String) : List F64 :=
  (ratedItems partition).filterMap (fun p =>
    (entry similarities p.1 j).map (fun s => F64.mul s p.2))

/-- The effect of `+=` on an entry: an absent entry counts as the zero value. -/
def bump (old : Option F64) (x : Option F64) : Option F64 :=
  match x with
  | none => old
  | some v => some (F64.add (old.getD F64.zero) v)

/-- The record stored for the target `j` after the pairs `visited` have been processed, from
the record `init` stored before: the last pair with an entry `similarities[i][j]` decides. -/
def lastPrediction (similarities : Matrix) (j : String) (visited : List (String × F64))
    (init : Option Result) : Option Result :=
  visited.foldl
    (fun acc p =>
      match entry similarities p.1 j with
      | some s => some ⟨j, F64.mul s p.2, "unknown"⟩
      | none => acc)
    init

/-- The map `results` is a map, and every record is stored under its own product id. -/
def ResultsInv (res : GoMap Result) : Prop :=
  res.WF ∧ ∀ e ∈ res, e.2.ProductID = e.1

/-! ## Matrix builder (`src/v1/Cluster/server/server.go`, `src/v2/cluster/server/server.go`) -/

/-- The record `Product` of the two servers. -/
structure Product where
  ReviewerID : String
  ProductID : String
  Stars : F64
  ProductCategory : String
  deriving DecidableEq

/-- The body of the loop of `buildUserItemMatrix` for one record: bind the reviewer to a fresh
map when absent, then the assignment `matrix[ReviewerID][ProductID] = Stars`. -/
def buildStep (matrix : Matrix) (product : Product) : Matrix :=
  let matrix := if (matrix.get? product.ReviewerID).isSome then matrix
    else matrix.set product.ReviewerID []
  matrix.set product.ReviewerID
    (((matrix.get? product.ReviewerID).getD []).set product.ProductID product.Stars)

/-- The function `buildUserItemMatrix(products)`, the same in both servers. -/
def buildUserItemMatrix (products : List Product) : Matrix :=
  products.foldl buildStep []

/-- The records of reviewer `u` for product `p`, in the order of the sequence. -/
def recordsOf (products : List Product) (u p : String) : List Product :=
  products.filter (fun r => decide (r.ReviewerID = u ∧ r.ProductID = p))


/-! ## Lemmas on Go maps -/

namespace GoMap

variable {V : Type}

theorem get?_set_self (m : GoMap V) (k : String) (v : V) : (m.set k v).get? k = some v := by
  induction m with
  | nil => simp [set, get?]
  | cons e rest ih =>
    obtain ⟨k', v'⟩ := e
    by_cases h : k' = k
    · simp [set, get?, h]
    · simp [set, get?, h, ih]

theorem get?_set_ne (m : GoMap V) {k k' : String} (v : V) (h : k ≠ k') :
    (m.set k v).get? k' = m.get? k' := by
  induction m with
  | nil => simp [set, get?, h]
  | cons e rest ih =>
    obtain ⟨k₀, v₀⟩ := e
    by_cases h₀ : k₀ = k
    · subst h₀; simp [set, get?, h]
    · by_cases h₁ : k₀ = k'
      · subst h₁; simp [set, get?, h₀]
      · simp [set, get?, h₀, h₁, ih]

theorem get?_eq_none_iff (m : GoMap V) (k : String) : m.get? k = none ↔ k ∉ m.keys := by
  induction m with
  | nil => simp [get?, keys]
  | cons e rest ih =>
    obtain ⟨k₀, v₀⟩ := e
    by_cases h₀ : k₀ = k
    · simp [get?, keys, h₀]
    · have : ¬ k = k₀ := fun h => h₀ h.symm
      simpa [get?, keys, h₀, this] using ih

theorem mem_keys_iff (m : GoMap V) (k : String) : k ∈ m.keys ↔ ∃ v, m.get? k = some v := by
  rw [← not_iff_not, ← get?_eq_none_iff]
  cases m.get? k <;> simp

theorem get?_of_mem (m : GoMap V) (hm : m.WF) {k : String} {v : V} (h : (k, v) ∈ m) :
    m.get? k = some v := by
  induction m with
  | nil => simp at h
  | cons e rest ih =>
    obtain ⟨k₀, v₀⟩ := e
    have hm' : k₀ ∉ keys rest ∧ WF rest := by simpa [WF, keys] using hm
    rcases List.mem_cons.1 h with h | h
    · cases h; simp [get?]
    · have hk : k ∈ keys rest := List.mem_map_of_mem Prod.fst h
      have : k₀ ≠ k := fun e => hm'.1 (e ▸ hk)
      simp [get?, this, ih hm'.2 h]

theorem mem_of_get? (m : GoMap V) {k : String} {v : V} (h : m.get? k = some v) : (k, v) ∈ m := by
  induction m with
  | nil => simp [get?] at h
  | cons e rest ih =>
    obtain ⟨k₀, v₀⟩ := e
    by_cases h₀ : k₀ = k
    · simp [get?, h₀] at h; simp [h₀, h]
    · simp [get?, h₀] at h; exact List.mem_cons_of_mem _ (ih h)

end GoMap

/-! ## The partitioner -/

theorem slotGet_modify (parts : List Matrix) (i j : Nat) (hi : i < parts.length)
    (user u : String) (items : GoMap F64) :
    slotGet (parts.modify (fun p => p.set user items) i) j u =
      if i = j ∧ user = u then some items else slotGet parts j u := by
  unfold slotGet
  simp only [List.getD_eq_getElem?_getD, List.getElem?_modify]
  by_cases hij : i = j
  · subst hij
    simp only [List.getElem?_eq_getElem hi, if_true, Option.map_eq_map, Option.map_some',
      Option.getD_some, true_and]
    by_cases hu : user = u
    · subst hu; simp [GoMap.get?_set_self]
    · simp [hu, GoMap.get?_set_ne _ _ hu]
  · simp [hij]

theorem partitionLoop_spec (n : Nat) (hn : 0 < n) (rest : GoMap (GoMap F64)) :
    ∀ (parts : List Matrix) (a : Nat), rest.WF → parts.length = n → a < n →
      ∃ parts', partitionLoop n rest parts a = .ok parts' ∧ parts'.length = n ∧
        ∀ j u, slotGet parts' j u =
          if u ∈ rest.keys ∧ (a + rest.keys.indexOf u) % n = j then rest.get? u
          else slotGet parts j u := by
  induction rest with
  | nil => intro parts a _ hl _; exact ⟨parts, rfl, hl, by simp [GoMap.keys]⟩
  | cons e rest ih =>
    obtain ⟨user, items⟩ := e
    intro parts a hwf hl ha
    have hwf' : user ∉ GoMap.keys rest ∧ GoMap.WF rest := by simpa [GoMap.WF, GoMap.keys] using hwf
    have hstep : ((a : Int) + 1).tmod (n : Int) = (((a + 1) % n : Nat) : Int) := by
      rw [Int.ofNat_tmod]; rfl
    have hn0 : (n : Int) ≠ 0 := by omega
    have hguard : ¬ ((a : Int) < 0 ∨ (parts.length : Int) ≤ a) := by omega
    obtain ⟨parts', hrun, hlen, hchar⟩ :=
      ih (parts.modify (fun p => p.set user items) a) ((a + 1) % n) hwf'.2
        (by simp [hl]) (Nat.mod_lt _ hn)
    refine ⟨parts', ?_, hlen, ?_⟩
    · simp only [partitionLoop, hguard, hn0, if_false, hstep, Int.toNat_ofNat]
      exact hrun
    · intro j u
      rw [hchar j u, slotGet_modify _ _ _ (by omega)]
      by_cases hu : user = u
      · subst hu
        have h1 : ¬ (user ∈ GoMap.keys rest ∧ ((a + 1) % n + List.indexOf user (GoMap.keys rest)) % n = j) :=
          fun h => hwf'.1 h.1
        rw [if_neg h1]
        simp [GoMap.keys, GoMap.get?, Nat.mod_eq_of_lt ha]
      · have hu' : ¬ u = user := fun h => hu h.symm
        have hidx : List.indexOf u (user :: GoMap.keys rest) = List.indexOf u (GoMap.keys rest) + 1 := by
          rw [List.indexOf_cons_ne _ hu]
        have hmod : (a + (List.indexOf u (GoMap.keys rest) + 1)) % n =
            ((a + 1) % n + List.indexOf u (GoMap.keys rest)) % n := by
          rw [Nat.add_mod ((a + 1) % n), Nat.mod_mod, ← Nat.add_mod]; congr 1; omega
        have hk : GoMap.keys ((user, items) :: rest) = user :: GoMap.keys rest := rfl
        rw [hk, hidx, hmod]
        simp [GoMap.get?, hu, hu']

theorem slotGet_of_getElem? {parts : List Matrix} {j : Nat} {p : Matrix} (h : parts[j]? = some p)
    (u : String) : slotGet parts j u = p.get? u := by
  simp [slotGet, List.getD_eq_getElem?_getD, h]

theorem slotGet_replicate (n j : Nat) (u : String) :
    slotGet (List.replicate n ([] : Matrix)) j u = none := by
  unfold slotGet
  rw [List.getD_eq_getElem?_getD]
  by_cases h : j < n
  · simp [List.getElem?_replicate, h, GoMap.get?]
  · simp [List.getElem?_replicate, h, GoMap.get?]

/-- Closed form of the partitioner on a positive count: the user at position `k` of the
traversal is stored, with its row, in partition `k % n` and nowhere else. -/
theorem partition_spec (matrix : Matrix) (n : Nat) (hwf : matrix.WF) (hn : 0 < n) :
    ∃ parts, partitionUserItemMatrix matrix n = .ok parts ∧ parts.length = n ∧
      ∀ j u, slotGet parts j u =
        if u ∈ matrix.keys ∧ matrix.keys.indexOf u % n = j then matrix.get? u else none := by
  obtain ⟨parts, hrun, hlen, hchar⟩ :=
    partitionLoop_spec n hn matrix (List.replicate n []) 0 hwf (by simp) hn
  refine ⟨parts, ?_, hlen, ?_⟩
  · have : ¬ ((n : Int) < 0) := by omega
    simp only [partitionUserItemMatrix, this, if_false, Int.toNat_ofNat]
    exact hrun
  · intro j u
    rw [hchar j u, slotGet_replicate, Nat.zero_add]

/-- C1: for every user-item matrix and every n > 0 the partitioner returns exactly n
partitions; the union of their user sets is the user set of the matrix, every user of the matrix
is in exactly one partition, and the row stored for a user is the user's row in the matrix. -/
theorem partition_coverage (matrix : Matrix) (n : Int) (hwf : matrix.WF) (hn : 0 < n) :
    ∃ parts, partitionUserItemMatrix matrix n = .ok parts ∧ (parts.length : Int) = n ∧
      (∀ u, u ∈ matrix.keys ↔ ∃ p ∈ parts, u ∈ p.keys) ∧
      (∀ u ∈ matrix.keys, ∃! j : Nat, ∃ p : Matrix, parts[j]? = some p ∧ u ∈ p.keys) ∧
      (∀ p ∈ parts, ∀ u ∈ p.keys, p.get? u = matrix.get? u) := by
  obtain ⟨m, rfl⟩ : ∃ m : Nat, n = m := ⟨n.toNat, by omega⟩
  have hm : 0 < m := by omega
  obtain ⟨parts, hrun, hlen, hchar⟩ := partition_spec matrix m hwf hm
  have hin : ∀ {u : String}, u ∈ matrix.keys →
      ∃ p, parts[matrix.keys.indexOf u % m]? = some p ∧ p.get? u = matrix.get? u := by
    intro u hu
    have hlt : matrix.keys.indexOf u % m < parts.length := by
      rw [hlen]; exact Nat.mod_lt _ hm
    refine ⟨parts[matrix.keys.indexOf u % m], List.getElem?_eq_getElem hlt, ?_⟩
    rw [← slotGet_of_getElem? (List.getElem?_eq_getElem hlt) u, hchar]
    simp [hu]
  have hout : ∀ {j : Nat} {p : Matrix} {u : String}, parts[j]? = some p → u ∈ p.keys →
      u ∈ matrix.keys ∧ matrix.keys.indexOf u % m = j ∧ p.get? u = matrix.get? u := by
    intro j p u hp hu
    obtain ⟨r, hr⟩ := (GoMap.mem_keys_iff p u).1 hu
    have h := hchar j u
    rw [slotGet_of_getElem? hp u, hr] at h
    by_cases hc : u ∈ matrix.keys ∧ matrix.keys.indexOf u % m = j
    · rw [if_pos hc] at h
      exact ⟨hc.1, hc.2, hr.trans h⟩
    · rw [if_neg hc] at h; cases h
  have hkeys : ∀ {p : Matrix} {u : String}, p.get? u = matrix.get? u → u ∈ matrix.keys →
      u ∈ p.keys := by
    intro p u h hu
    obtain ⟨r, hr⟩ := (GoMap.mem_keys_iff matrix u).1 hu
    exact (GoMap.mem_keys_iff p u).2 ⟨r, h.trans hr⟩
  refine ⟨parts, hrun, by simp [hlen], ?_, ?_, ?_⟩
  · intro u
    constructor
    · intro hu
      obtain ⟨p, hp, hget⟩ := hin hu
      exact ⟨p, List.mem_iff_getElem?.2 ⟨_, hp⟩, hkeys hget hu⟩
    · rintro ⟨p, hp, hu⟩
      obtain ⟨j, hj⟩ := List.mem_iff_getElem?.1 hp
      exact (hout hj hu).1
  · intro u hu
    obtain ⟨p, hp, hget⟩ := hin hu
    refine ⟨matrix.keys.indexOf u % m, ⟨p, hp, hkeys hget hu⟩, ?_⟩
    rintro j ⟨q, hq, huq⟩
    exact (hout hq huq).2.1.symm
  · intro p hp u hu
    obtain ⟨j, hj⟩ := List.mem_iff_getElem?.1 hp
    exact (hout hj hu).2.2

/-- Witness for C1: three users dealt over two partitions. -/
theorem partition_coverage_witness :
    ∃ parts, partitionUserItemMatrix
        [("u1", [("p1", .fin 5), ("p2", .fin 3)]), ("u2", [("p1", .fin 4)]), ("u3", [])] 2
          = .ok parts ∧ (parts.length : Int) = 2 ∧
      (∀ u, u ∈ GoMap.keys ([("u1", [("p1", .fin 5), ("p2", .fin 3)]), ("u2", [("p1", .fin 4)]),
          ("u3", [])] : Matrix) ↔ ∃ p ∈ parts, u ∈ p.keys) ∧
      (∀ u ∈ GoMap.keys ([("u1", [("p1", .fin 5), ("p2", .fin 3)]), ("u2", [("p1", .fin 4)]),
          ("u3", [])] : Matrix), ∃! j : Nat, ∃ p : Matrix, parts[j]? = some p ∧ u ∈ p.keys) ∧
      (∀ p ∈ parts, ∀ u ∈ p.keys, p.get? u = GoMap.get?
        ([("u1", [("p1", .fin 5), ("p2", .fin 3)]), ("u2", [("p1", .fin 4)]), ("u3", [])] : Matrix)
        u) :=
  partition_coverage _ 2 (by decide) (by decide)

/-! ## The partitioner on a non-positive count -/

/-- C9, as stated, fails: with `n = 0` the partitioner returns a list of partitions on the empty
matrix and faults on a non-empty one, and with `n = -1` it faults in `make`; no error value is
involved. -/
theorem partition_nonpositive_counterexample :
    partitionUserItemMatrix [] 0 = .ok [] ∧
    partitionUserItemMatrix [("u1", [("p1", .fin 5)])] 0 = .error .indexOutOfRange ∧
    partitionUserItemMatrix [("u1", [("p1", .fin 5)])] (-1) = .error .makesliceLenOutOfRange :=
  ⟨rfl, rfl, rfl⟩

/-- C9, amended: for n ≤ 0 the partitioner checks nothing. With `n = 0` and an empty matrix it
returns the empty list of partitions; with `n = 0` and a non-empty matrix the first store
`partitions[0][user]` is out of range; with `n < 0` the allocation `make` faults. -/
theorem partition_nonpositive (matrix : Matrix) (n : Int) (hn : n ≤ 0) :
    partitionUserItemMatrix matrix n =
      if n < 0 then .error .makesliceLenOutOfRange
      else if matrix = [] then .ok []
      else .error .indexOutOfRange := by
  by_cases h : n < 0
  · simp [partitionUserItemMatrix, h]
  · have h0 : n = 0 := by omega
    subst h0
    cases matrix with
    | nil => simp [partitionUserItemMatrix, partitionLoop]
    | cons e rest =>
      obtain ⟨user, items⟩ := e
      simp [partitionUserItemMatrix, partitionLoop]

/-- Witness for the amended C9 at the count `0` and a one-user matrix. -/
theorem partition_nonpositive_witness :
    partitionUserItemMatrix [("u1", [("p1", .fin 5)])] 0 =
      if (0 : Int) < 0 then .error .makesliceLenOutOfRange
      else if ([("u1", [("p1", .fin 5)])] : Matrix) = [] then .ok []
      else .error .indexOutOfRange :=
  partition_nonpositive [("u1", [("p1", .fin 5)])] 0 (by decide)

/-! ## Reproducibility of the assignment -/

/-- C10, as stated, fails: the same two user rows visited in the two possible orders are
assigned differently (user `u1` is in partition 0 in one run and in partition 1 in the
other). -/
theorem partition_order_counterexample :
    ¬ ∀ (m₁ m₂ : Matrix) (n : Int) (parts₁ parts₂ : List Matrix),
        m₁.WF → m₁.Perm m₂ → 0 < n →
        partitionUserItemMatrix m₁ n = .ok parts₁ →
        partitionUserItemMatrix m₂ n = .ok parts₂ →
        ∀ j u, (slotGet parts₁ j u).isSome = (slotGet parts₂ j u).isSome := by
  intro h
  have h' := h [("u1", [("p1", .fin 5)]), ("u2", [("p1", .fin 4)])]
    [("u2", [("p1", .fin 4)]), ("u1", [("p1", .fin 5)])] 2
    [[("u1", [("p1", .fin 5)])], [("u2", [("p1", .fin 4)])]]
    [[("u2", [("p1", .fin 4)])], [("u1", [("p1", .fin 5)])]]
    (by decide) (List.Perm.swap _ _ _) (by decide) rfl rfl 0 "u1"
  revert h'
  decide

/-- C10, amended: for n > 0 the assignment is fixed by the order in which the users are
visited: the user visited at position `k` (from 0) is in partition `k mod n`, and in no other
partition. -/
theorem partition_follows_traversal (matrix : Matrix) (n : Int) (hwf : matrix.WF) (hn : 0 < n) :
    ∃ parts, partitionUserItemMatrix matrix n = .ok parts ∧
      ∀ (k : Nat) (hk : k < matrix.length) (j : Nat),
        slotGet parts j (matrix.get ⟨k, hk⟩).1 =
          if j = k % n.toNat then some (matrix.get ⟨k, hk⟩).2 else none := by
  obtain ⟨m, rfl⟩ : ∃ m : Nat, n = m := ⟨n.toNat, by omega⟩
  have hm : 0 < m := by omega
  obtain ⟨parts, hrun, -, hchar⟩ := partition_spec matrix m hwf hm
  refine ⟨parts, hrun, ?_⟩
  intro k hk j
  have hk' : k < matrix.keys.length := by simpa [GoMap.keys] using hk
  have hkey : matrix.keys.get ⟨k, hk'⟩ = (matrix.get ⟨k, hk⟩).1 := by
    simp [GoMap.keys]
  have hidx : matrix.keys.indexOf (matrix.get ⟨k, hk⟩).1 = k := by
    rw [← hkey]
    exact List.get_indexOf hwf ⟨k, hk'⟩
  have hmem : (matrix.get ⟨k, hk⟩).1 ∈ matrix.keys := by
    rw [← hkey]; exact List.get_mem _ _ _
  have hget : matrix.get? (matrix.get ⟨k, hk⟩).1 = some (matrix.get ⟨k, hk⟩).2 :=
    GoMap.get?_of_mem matrix hwf (List.get_mem _ _ _)
  rw [hchar, hidx, hget]
  simp only [Int.toNat_ofNat, hmem, true_and]
  by_cases hj : j = k % m
  · simp [hj]
  · have : ¬ k % m = j := fun h => hj h.symm
    simp [hj, this]

/-- Witness for the amended C10: three users over two partitions. -/
theorem partition_follows_traversal_witness :
    ∃ parts, partitionUserItemMatrix
        [("u1", [("p1", .fin 5)]), ("u2", [("p1", .fin 4)]), ("u3", [])] 2 = .ok parts ∧
      ∀ (k : Nat)
        (hk : k < ([("u1", [("p1", .fin 5)]), ("u2", [("p1", .fin 4)]), ("u3", [])] :
          Matrix).length) (j : Nat),
        slotGet parts j
            (([("u1", [("p1", .fin 5)]), ("u2", [("p1", .fin 4)]), ("u3", [])] : Matrix).get
              ⟨k, hk⟩).1 =
          if j = k % (2 : Int).toNat then
            some (([("u1", [("p1", .fin 5)]), ("u2", [("p1", .fin 4)]), ("u3", [])] :
              Matrix).get ⟨k, hk⟩).2
          else none :=
  partition_follows_traversal _ 2 (by decide) (by decide)

/-! ## The dispatch loop -/

theorem checkClientsAvailability_eq_filter (dial : String → Bool) (clients : List String) :
    checkClientsAvailability dial clients = clients.filter dial := by
  induction clients with
  | nil => rfl
  | cons c cs ih =>
    by_cases h : dial c <;> simp [checkClientsAvailability, h, ih]

theorem dispatchLoop_eq_zip (partitions : List Matrix) (available : List String) :
    ∀ i, i + available.length ≤ partitions.length →
      dispatchLoop partitions available i = .ok (available.zip (partitions.drop i)) := by
  induction available with
  | nil => intro i _; simp [dispatchLoop]
  | cons c cs ih =>
    intro i hi
    have hlt : i < partitions.length := by simp at hi; omega
    have hdrop : partitions.drop i = partitions[i] :: partitions.drop (i + 1) :=
      List.drop_eq_getElem_cons hlt
    simp only [dispatchLoop, List.getElem?_eq_getElem hlt]
    rw [ih (i + 1) (by simp at hi; omega), hdrop]
    rfl

/-- C8, as stated, fails: with the three configured workers of `main` and the first one
unavailable, the second worker is sent partition 0 and the third partition 1 (not their own
slots 1 and 2): the second worker is not sent partition 1, and the undispatched partition is
partition 2, whose worker is available. -/
theorem dispatch_counterexample :
    mainDispatch ["client1:9001", "client2:9002", "client3:9003"]
        (fun c => c != "client1:9001")
        [("u1", [("p1", .fin 5)]), ("u2", [("p1", .fin 4)]), ("u3", [("p1", .fin 3)])] =
      .ok [("client2:9002", [("u1", [("p1", .fin 5)])]),
           ("client3:9003", [("u2", [("p1", .fin 4)])])] ∧
    partitionUserItemMatrix
        [("u1", [("p1", .fin 5)]), ("u2", [("p1", .fin 4)]), ("u3", [("p1", .fin 3)])] 3 =
      .ok [[("u1", [("p1", .fin 5)])], [("u2", [("p1", .fin 4)])], [("u3", [("p1", .fin 3)])]] ∧
    (("client2:9002", [("u2", [("p1", .fin 4)])]) : String × Matrix) ∉
      [("client2:9002", ([("u1", [("p1", .fin 5)])] : Matrix)),
       ("client3:9003", [("u2", [("p1", .fin 4)])])] :=
  ⟨rfl, rfl, by with_unfolding_all decide⟩

/-- C8, amended: the available workers are the configured ones that answer the probe, in
configured order, and the dispatch loop sends partition `k` to the `k`-th available worker:
the exchanges started are the available workers zipped with the first partitions, so the
partitions left undispatched are the last ones. -/
theorem dispatch_by_available_position (clients : List String) (dial : String → Bool)
    (partitions : List Matrix) (hlen : partitions.length = clients.length) :
    checkClientsAvailability dial clients = clients.filter dial ∧
    dispatchLoop partitions (checkClientsAvailability dial clients) 0 =
      .ok ((checkClientsAvailability dial clients).zip partitions) := by
  refine ⟨checkClientsAvailability_eq_filter dial clients, ?_⟩
  have h := dispatchLoop_eq_zip partitions (checkClientsAvailability dial clients) 0
    (by
      rw [checkClientsAvailability_eq_filter, hlen, Nat.zero_add]
      exact List.length_filter_le _ _)
  simpa using h

/-- Witness for the amended C8: three workers, the first one unavailable. -/
theorem dispatch_by_available_position_witness :
    checkClientsAvailability (fun c => c != "client1:9001")
        ["client1:9001", "client2:9002", "client3:9003"] =
      List.filter (fun c => c != "client1:9001")
        ["client1:9001", "client2:9002", "client3:9003"] ∧
    dispatchLoop [[("u1", [])], [("u2", [])], [("u3", [])]]
        (checkClientsAvailability (fun c => c != "client1:9001")
          ["client1:9001", "client2:9002", "client3:9003"]) 0 =
      .ok ((checkClientsAvailability (fun c => c != "client1:9001")
          ["client1:9001", "client2:9002", "client3:9003"]).zip
        [[("u1", [])], [("u2", [])], [("u3", [])]]) :=
  dispatch_by_available_position _ _ _ (by decide)

/-! ## Co-occurrence scores -/

theorem entry_set (m : Matrix) (i : String) (row : GoMap F64) (i' j' : String) :
    entry (m.set i row) i' j' = if i = i' then row.get? j' else entry m i' j' := by
  unfold entry
  by_cases h : i = i'
  · subst h; simp [GoMap.get?_set_self]
  · simp [h, GoMap.get?_set_ne _ _ h]

theorem entry_addTo (sims : Matrix) (i j : String) (x : F64) (i' j' : String) :
    entry (addTo sims i j x) i' j' =
      bump (entry sims i' j') (if i = i' ∧ j = j' then some x else none) := by
  have hrow : ∀ k, ((sims.get? i).getD []).get? k = entry sims i k := by
    intro k
    unfold entry
    cases sims.get? i <;> simp [GoMap.get?]
  unfold addTo
  simp only [entry_set]
  by_cases hi : i = i'
  · subst hi
    by_cases hj : j = j'
    · subst hj; simp [GoMap.get?_set_self, hrow, bump]
    · simp [hj, GoMap.get?_set_ne _ _ hj, hrow, bump]
  · simp [hi, bump]

theorem entry_ensure (sims : Matrix) (i i' j' : String) :
    entry (if (sims.get? i).isSome then sims else sims.set i []) i' j' = entry sims i' j' := by
  by_cases h : (sims.get? i).isSome
  · simp [h]
  · rw [if_neg h, entry_set]
    by_cases hi : i = i'
    · subst hi
      have : sims.get? i = none := by
        cases hg : sims.get? i with
        | none => rfl
        | some r => simp [hg] at h
      simp [entry, this, GoMap.get?]
    · simp [hi]

theorem entry_cosineInner (i : String) (r : F64) (items : GoMap F64) :
    ∀ (sims : Matrix), items.WF → ∀ i' j',
      entry (cosineInner i r items sims) i' j' =
        bump (entry sims i' j')
          (if i' = i ∧ j' ≠ i then (items.get? j').map (F64.mul r) else none) := by
  induction items with
  | nil => intro sims _ i' j'; simp [cosineInner, GoMap.get?, bump]
  | cons e rest ih =>
    obtain ⟨k, b⟩ := e
    intro sims hwf i' j'
    have hwf' : k ∉ GoMap.keys rest ∧ GoMap.WF rest := by simpa [GoMap.WF, GoMap.keys] using hwf
    have hnone : GoMap.get? rest k = none := (GoMap.get?_eq_none_iff rest k).2 hwf'.1
    have hstep : cosineInner i r ((k, b) :: rest) sims =
        cosineInner i r rest (if i = k then sims else addTo sims i k (F64.mul r b)) := by
      simp [cosineInner]
    rw [hstep, ih _ hwf'.2]
    by_cases hik : i = k
    · subst hik
      by_cases hi : i' = i
      · subst hi
        by_cases hj : j' = i'
        · simp [hj]
        · have : ¬ i' = j' := fun h => hj h.symm
          simp [hj, GoMap.get?, this]
      · simp [hi]
    · simp only [hik, if_false, entry_addTo]
      by_cases hi : i' = i
      · subst hi
        by_cases hj : j' = k
        · subst hj
          have : ¬ j' = i' := fun h => hik h.symm
          simp [this, hnone, GoMap.get?, bump]
        · have hkj : ¬ k = j' := fun h => hj h.symm
          simp [hkj, GoMap.get?, bump]
      · have : ¬ i = i' := fun h => hi h.symm
        simp [hi, this, bump]

theorem entry_cosineRow (items : GoMap F64) (hitems : items.WF) (visit : GoMap F64) :
    ∀ (sims : Matrix), visit.WF → ∀ i' j',
      entry (cosineRow items visit sims) i' j' =
        bump (entry sims i' j')
          (if i' ≠ j' then (visit.get? i').bind (fun a => (items.get? j').map (F64.mul a))
           else none) := by
  induction visit with
  | nil => intro sims _ i' j'; simp [cosineRow, GoMap.get?, bump]
  | cons e rest ih =>
    obtain ⟨k, a⟩ := e
    intro sims hwf i' j'
    have hwf' : k ∉ GoMap.keys rest ∧ GoMap.WF rest := by simpa [GoMap.WF, GoMap.keys] using hwf
    have hnone : GoMap.get? rest k = none := (GoMap.get?_eq_none_iff rest k).2 hwf'.1
    have hstep : cosineRow items ((k, a) :: rest) sims =
        cosineRow items rest
          (cosineInner k a items (if (sims.get? k).isSome then sims else sims.set k [])) := by
      simp [cosineRow]
    rw [hstep, ih _ hwf'.2, entry_cosineInner _ _ _ _ hitems, entry_ensure]
    by_cases hi : i' = k
    · subst hi
      by_cases hj : j' = i'
      · subst hj; simp [bump]
      · have : ¬ i' = j' := fun h => hj h.symm
        simp [hj, this, hnone, GoMap.get?, bump]
    · have : ¬ k = i' := fun h => hi h.symm
      simp [hi, this, GoMap.get?, bump]

theorem coRatings_cons (e : String × GoMap F64) (rest : Matrix) (i j : String) :
    coRatings (e :: rest) i j =
      ((e.2.get? i).bind (fun a => (e.2.get? j).map (F64.mul a))).toList ++
        coRatings rest i j := by
  unfold coRatings
  cases hi : e.2.get? i <;> cases hj : e.2.get? j <;> simp [List.filterMap_cons, hi, hj]

theorem entry_cosineFold (partition : Matrix) :
    ∀ (sims : Matrix), RowsWF partition → ∀ i j,
      entry (partition.foldl (fun sims e => cosineRow e.2 e.2 sims) sims) i j =
        if i = j then entry sims i j
        else (coRatings partition i j).foldl (fun o x => bump o (some x)) (entry sims i j) := by
  induction partition with
  | nil => intro sims _ i j; simp [coRatings]
  | cons e rest ih =>
    intro sims hwf i j
    have hwf' : GoMap.WF e.2 ∧ RowsWF rest := by
      constructor
      · exact hwf e (List.mem_cons_self _ _)
      · intro e' he'; exact hwf e' (List.mem_cons_of_mem _ he')
    rw [List.foldl_cons, ih _ hwf'.2, entry_cosineRow _ hwf'.1 _ _ hwf'.1, coRatings_cons]
    by_cases hij : i = j
    · simp [hij, bump]
    · simp only [hij, if_false, ne_eq, not_false_eq_true, if_true, List.foldl_append]
      cases (e.2.get? i).bind (fun a => (e.2.get? j).map (F64.mul a)) <;> simp [bump]

theorem foldl_bump_some (l : List F64) (v : F64) :
    l.foldl (fun o x => bump o (some x)) (some v) = some (l.foldl F64.add v) := by
  induction l generalizing v with
  | nil => rfl
  | cons x xs ih =>
    rw [List.foldl_cons, List.foldl_cons]
    exact ih _

theorem foldl_bump_none (l : List F64) :
    l.foldl (fun o x => bump o (some x)) none =
      if l = [] then none else some (l.foldl F64.add F64.zero) := by
  cases l with
  | nil => rfl
  | cons x xs =>
    rw [List.foldl_cons, if_neg (List.cons_ne_nil _ _), List.foldl_cons]
    exact foldl_bump_some _ _

theorem coRatings_ne_nil_iff (partition : Matrix) (i j : String) :
    coRatings partition i j ≠ [] ↔ ∃ e ∈ partition, i ∈ e.2.keys ∧ j ∈ e.2.keys := by
  induction partition with
  | nil => simp [coRatings]
  | cons e rest ih =>
    rw [coRatings_cons]
    simp only [ne_eq, List.append_eq_nil, not_and_or, List.mem_cons, exists_eq_or_imp]
    rw [← ne_eq, ← ne_eq, ih, GoMap.mem_keys_iff, GoMap.mem_keys_iff]
    apply or_congr _ Iff.rfl
    cases e.2.get? i <;> cases e.2.get? j <;> simp

/-- C2: for distinct items `i` and `j` the entry `[i][j]` computed by
`calculateCosineSimilarities` is the sum, accumulated from 0 in the order the users are visited,
of `rating[i] * rating[j]` over the users who rated both; the entry exists exactly when some
user rated both items, and there is no diagonal entry. -/
theorem cosine_similarities_spec (partition : Matrix) (hrows : RowsWF partition)
    (i j : String) (hij : i ≠ j) :
    entry (calculateCosineSimilarities partition) i j =
        (if coRatings partition i j = [] then none
         else some ((coRatings partition i j).foldl F64.add F64.zero)) ∧
      ((entry (calculateCosineSimilarities partition) i j).isSome ↔
        ∃ e ∈ partition, i ∈ e.2.keys ∧ j ∈ e.2.keys) ∧
      entry (calculateCosineSimilarities partition) i i = none := by
  have hmain : entry (calculateCosineSimilarities partition) i j =
      (if coRatings partition i j = [] then none
       else some ((coRatings partition i j).foldl F64.add F64.zero)) := by
    unfold calculateCosineSimilarities
    rw [entry_cosineFold partition [] hrows i j, if_neg hij]
    exact foldl_bump_none _
  refine ⟨hmain, ?_, ?_⟩
  · rw [hmain, ← coRatings_ne_nil_iff]
    by_cases h : coRatings partition i j = [] <;> simp [h]
  · unfold calculateCosineSimilarities
    rw [entry_cosineFold partition [] hrows i i, if_pos rfl]
    rfl

/-- Witness for C2: the partition of the specification, where both entries are
`5*3 + 4*2 = 23`. -/
theorem cosine_similarities_witness :
    entry (calculateCosineSimilarities
        [("u1", [("p1", .fin 5), ("p2", .fin 3)]), ("u2", [("p1", .fin 4), ("p2", .fin 2)])])
        "p1" "p2" = some (.fin 23) ∧
    entry (calculateCosineSimilarities
        [("u1", [("p1", .fin 5), ("p2", .fin 3)]), ("u2", [("p1", .fin 4), ("p2", .fin 2)])])
        "p2" "p1" = some (.fin 23) :=
  ⟨(cosine_similarities_spec _ (by decide) "p1" "p2" (by decide)).1.trans
      (by with_unfolding_all decide),
   (cosine_similarities_spec _ (by decide) "p2" "p1" (by decide)).1.trans
      (by with_unfolding_all decide)⟩

/-! ## Folds that bind keys -/

theorem get?_foldl_set {V W : Type} (g : String → V → W) (l : GoMap V) :
    ∀ (acc : GoMap W), l.WF → ∀ k,
      GoMap.get? (l.foldl (fun acc e => GoMap.set acc e.1 (g e.1 e.2)) acc) k =
        ((GoMap.get? l k).map (g k)).or (GoMap.get? acc k) := by
  induction l with
  | nil => intro acc _ k; simp [GoMap.get?]
  | cons e rest ih =>
    obtain ⟨k₀, v₀⟩ := e
    intro acc hwf k
    have hwf' : k₀ ∉ GoMap.keys rest ∧ GoMap.WF rest := by simpa [GoMap.WF, GoMap.keys] using hwf
    rw [List.foldl_cons, ih _ hwf'.2]
    by_cases hk : k₀ = k
    · subst hk
      have hnone : GoMap.get? rest k₀ = none := (GoMap.get?_eq_none_iff rest k₀).2 hwf'.1
      simp [hnone, GoMap.get?, GoMap.get?_set_self]
    · simp [GoMap.get?, hk, GoMap.get?_set_ne _ _ hk]

/-! ## Rounding to binary64 -/

namespace F64

theorem pow2_eq (e : Int) : pow2 e = (2 : ℚ) ^ e := by
  unfold pow2
  by_cases h : 0 ≤ e
  · obtain ⟨n, rfl⟩ := Int.eq_ofNat_of_zero_le h
    simp [Nat.one_shiftLeft]
  · obtain ⟨n, hn⟩ : ∃ n : Nat, -e = n := ⟨(-e).toNat, by omega⟩
    have he : e = -(n : Int) := by omega
    subst he
    simp [h, Nat.one_shiftLeft]

theorem pow2_pos (e : Int) : 0 < pow2 e := by
  rw [pow2_eq]; positivity

theorem pow2_add (a b : Int) : pow2 (a + b) = pow2 a * pow2 b := by
  rw [pow2_eq, pow2_eq, pow2_eq, zpow_add₀ (by norm_num : (2 : ℚ) ≠ 0)]

theorem pow2_le_pow2 {a b : Int} (h : a ≤ b) : pow2 a ≤ pow2 b := by
  rw [pow2_eq, pow2_eq]
  exact zpow_le_zpow_right₀ (by norm_num) h

theorem pow2_natCast (n : Nat) : pow2 (n : Int) = ((2 ^ n : Nat) : ℚ) := by
  rw [pow2_eq]; simp

theorem findExp_spec (a : ℚ) :
    ∀ (k : Nat) (lo : Int),
      lo ≤ findExp a k lo ∧ findExp a k lo < lo + ((1 <<< k : Nat) : Int) ∧
      (findExp a k lo = lo ∨ pow2 (findExp a k lo) ≤ a) ∧
      (findExp a k lo + (1 : Int) < lo + ((1 <<< k : Nat) : Int) →
        a < pow2 (findExp a k lo + 1)) := by
  intro k
  induction k with
  | zero =>
    intro lo
    simp [findExp]
  | succ k ih =>
    intro lo
    have hw : ((1 <<< (k + 1) : Nat) : Int) = 2 * ((1 <<< k : Nat) : Int) := by
      rw [Nat.one_shiftLeft, Nat.one_shiftLeft, pow_succ]; push_cast; ring
    have hw1 : (1 : Int) ≤ ((1 <<< k : Nat) : Int) := by
      rw [Nat.one_shiftLeft]
      exact_mod_cast Nat.one_le_two_pow
    rw [hw]
    by_cases hc : pow2 (lo + ((1 <<< k : Nat) : Int)) ≤ a
    · have hstep : findExp a (k + 1) lo = findExp a k (lo + ((1 <<< k : Nat) : Int)) := by
        simp [findExp, hc]
      obtain ⟨h1, h2, h3, h4⟩ := ih (lo + ((1 <<< k : Nat) : Int))
      rw [hstep]
      refine ⟨by omega, by omega, ?_, fun h => h4 (by omega)⟩
      rcases h3 with h3 | h3
      · right; rw [h3]; exact hc
      · right; exact h3
    · have hstep : findExp a (k + 1) lo = findExp a k lo := by
        simp [findExp, hc]
      obtain ⟨h1, h2, h3, h4⟩ := ih lo
      rw [hstep]
      refine ⟨h1, by omega, h3, ?_⟩
      intro _
      by_cases hlt : findExp a k lo + (1 : Int) < lo + ((1 <<< k : Nat) : Int)
      · exact h4 hlt
      · have heq : findExp a k lo + (1 : Int) = lo + ((1 <<< k : Nat) : Int) := by omega
        rw [heq]; exact lt_of_not_le hc

theorem expOf_spec (a : ℚ) :
    -1022 ≤ expOf a ∧ expOf a ≤ 1025 ∧
    (expOf a = -1022 ∨ pow2 (expOf a) ≤ a) ∧
    (expOf a < 1025 → a < pow2 (expOf a + 1)) := by
  obtain ⟨h1, h2, h3, h4⟩ := findExp_spec a 11 (-1022)
  have hw : ((1 <<< 11 : Nat) : Int) = 2048 := by decide
  rw [hw] at h2 h4
  unfold expOf
  exact ⟨h1, by omega, h3, fun h => h4 (by omega)⟩

theorem expOf_mono {a b : ℚ} (hab : a ≤ b) : expOf a ≤ expOf b := by
  obtain ⟨ha1, ha2, ha3, -⟩ := expOf_spec a
  obtain ⟨hb1, -, -, hb4⟩ := expOf_spec b
  by_contra h
  have hlt : expOf b < expOf a := by omega
  rcases ha3 with ha3 | ha3
  · omega
  · have h2 := hb4 (by omega)
    have := pow2_le_pow2 (show expOf b + 1 ≤ expOf a by omega)
    linarith

end F64

namespace F64

theorem floor_eq (t : ℚ) : Rat.floor t = ⌊t⌋ := rfl

theorem roundHalfEven_bounds (t : ℚ) :
    ⌊t⌋ ≤ roundHalfEven t ∧ roundHalfEven t ≤ ⌊t⌋ + 1 := by
  unfold roundHalfEven
  simp only [floor_eq]
  split_ifs <;> constructor <;> omega

theorem roundHalfEven_intCast (k : Int) : roundHalfEven (k : ℚ) = k := by
  unfold roundHalfEven
  simp [floor_eq]

theorem roundHalfEven_mono {t s : ℚ} (h : t ≤ s) : roundHalfEven t ≤ roundHalfEven s := by
  have hf : ⌊t⌋ ≤ ⌊s⌋ := Int.floor_mono h
  rcases lt_or_eq_of_le hf with hlt | heq
  · have h1 := (roundHalfEven_bounds t).2
    have h2 := (roundHalfEven_bounds s).1
    omega
  · unfold roundHalfEven
    simp only [floor_eq, heq]
    have hr : t - (⌊s⌋ : ℚ) ≤ s - (⌊s⌋ : ℚ) := by linarith
    split_ifs <;> first | omega | (exfalso; linarith)

theorem le_roundHalfEven {k : Int} {t : ℚ} (h : (k : ℚ) ≤ t) : k ≤ roundHalfEven t := by
  have := roundHalfEven_mono h
  rwa [roundHalfEven_intCast] at this

theorem roundHalfEven_le {k : Int} {t : ℚ} (h : t ≤ (k : ℚ)) : roundHalfEven t ≤ k := by
  have := roundHalfEven_mono h
  rwa [roundHalfEven_intCast] at this

/-- The definition of `roundMag`, unfolded. -/
theorem roundMag_eq (a : ℚ) :
    roundMag a = (roundHalfEven (a / pow2 (expOf a - 52)) : ℚ) * pow2 (expOf a - 52) := rfl

theorem roundMag_nonneg {a : ℚ} (ha : 0 ≤ a) : 0 ≤ roundMag a := by
  rw [roundMag_eq]
  have h0 : (0 : Int) ≤ roundHalfEven (a / pow2 (expOf a - 52)) :=
    le_roundHalfEven (by
      simpa using div_nonneg ha (le_of_lt (pow2_pos _)))
  exact mul_nonneg (by exact_mod_cast h0) (le_of_lt (pow2_pos _))

theorem pow2_split (e : Int) : pow2 e = ((2 ^ 52 : Int) : ℚ) * pow2 (e - 52) := by
  have h : ((2 ^ 52 : Int) : ℚ) = pow2 52 := by
    rw [pow2_eq]; norm_num
  rw [h, ← pow2_add]; congr 1; ring

theorem pow2_succ_split (e : Int) : pow2 (e + 1) = ((2 ^ 53 : Int) : ℚ) * pow2 (e - 52) := by
  have h : ((2 ^ 53 : Int) : ℚ) = pow2 53 := by
    rw [pow2_eq]; norm_num
  rw [h, ← pow2_add]; congr 1; ring

/-- The rounded magnitude stays within the binade of its exponent. -/
theorem roundMag_le_of_lt {a : ℚ} (he : expOf a < 1025) :
    roundMag a ≤ pow2 (expOf a + 1) := by
  have hlt : a < pow2 (expOf a + 1) := (expOf_spec a).2.2.2 he
  rw [roundMag_eq, pow2_succ_split]
  have hu := pow2_pos (expOf a - 52)
  have h1 : a / pow2 (expOf a - 52) ≤ ((2 ^ 53 : Int) : ℚ) := by
    rw [div_le_iff₀ hu, ← pow2_succ_split]; exact le_of_lt hlt
  have h2 : roundHalfEven (a / pow2 (expOf a - 52)) ≤ 2 ^ 53 := roundHalfEven_le h1
  exact mul_le_mul_of_nonneg_right (by exact_mod_cast h2) (le_of_lt hu)

theorem le_roundMag_of_le {a : ℚ} (he : pow2 (expOf a) ≤ a) :
    pow2 (expOf a) ≤ roundMag a := by
  rw [roundMag_eq]
  have hu := pow2_pos (expOf a - 52)
  have h1 : ((2 ^ 52 : Int) : ℚ) ≤ a / pow2 (expOf a - 52) := by
    rw [le_div_iff₀ hu, ← pow2_split]; exact he
  have h2 : (2 ^ 52 : Int) ≤ roundHalfEven (a / pow2 (expOf a - 52)) := le_roundHalfEven h1
  calc pow2 (expOf a) = ((2 ^ 52 : Int) : ℚ) * pow2 (expOf a - 52) := pow2_split _
    _ ≤ _ := mul_le_mul_of_nonneg_right (by exact_mod_cast h2) (le_of_lt hu)

/-- Rounding to the nearest binary64 magnitude is monotone. -/
theorem roundMag_mono {a b : ℚ} (hab : a ≤ b) : roundMag a ≤ roundMag b := by
  have hle : expOf a ≤ expOf b := expOf_mono hab
  obtain ⟨ha1, -, -, -⟩ := expOf_spec a
  obtain ⟨-, hb2, hb3, -⟩ := expOf_spec b
  rcases lt_or_eq_of_le hle with hlt | heq
  · have hb : pow2 (expOf b) ≤ b := by
      rcases hb3 with h | h
      · omega
      · exact h
    calc roundMag a ≤ pow2 (expOf a + 1) := roundMag_le_of_lt (by omega)
      _ ≤ pow2 (expOf b) := pow2_le_pow2 (by omega)
      _ ≤ roundMag b := le_roundMag_of_le hb
  · rw [roundMag_eq, roundMag_eq, heq]
    have hu := pow2_pos (expOf b - 52)
    have h1 : a / pow2 (expOf b - 52) ≤ b / pow2 (expOf b - 52) :=
      div_le_div_of_nonneg_right hab (le_of_lt hu)
    have h2 := roundHalfEven_mono h1
    exact mul_le_mul_of_nonneg_right (by exact_mod_cast h2) (le_of_lt hu)

/-- Every rounded magnitude is an integer multiple of `2 ^ -1074`. -/
theorem roundMag_multiple (a : ℚ) : ∃ k : Int, roundMag a = (k : ℚ) * pow2 (-1074) := by
  have hge : -1022 ≤ expOf a := (expOf_spec a).1
  obtain ⟨n, hn⟩ : ∃ n : Nat, expOf a - 52 = (n : Int) + (-1074) :=
    ⟨(expOf a + 1022).toNat, by omega⟩
  refine ⟨roundHalfEven (a / pow2 (expOf a - 52)) * (2 ^ n : Nat), ?_⟩
  rw [roundMag_eq, hn, pow2_add, pow2_natCast]
  push_cast
  ring

theorem roundMag_pos {a : ℚ} (ha : pow2 (-1074) ≤ a) : 0 < roundMag a := by
  obtain ⟨h1, -, h3, -⟩ := expOf_spec a
  have hu := pow2_pos (expOf a - 52)
  have hule : pow2 (expOf a - 52) ≤ a := by
    rcases h3 with h | h
    · rw [h]; exact ha
    · exact le_trans (pow2_le_pow2 (by omega)) h
  have h1 : ((1 : Int) : ℚ) ≤ a / pow2 (expOf a - 52) := by
    rw [le_div_iff₀ hu]; simpa using hule
  have h2 : (1 : Int) ≤ roundHalfEven (a / pow2 (expOf a - 52)) := le_roundHalfEven h1
  rw [roundMag_eq]
  exact mul_pos (by exact_mod_cast h2) hu

end F64

namespace F64

theorem round64_zero : round64 0 = fin 0 := by
  simp [round64]

theorem round64_one : round64 1 = fin 1 := by
  with_unfolding_all decide

theorem round64_of_pos {q : ℚ} (hq : 0 < q) :
    round64 q = if pow2 1024 ≤ roundMag q then posInf else fin (roundMag q) := by
  unfold round64
  rw [if_neg (ne_of_gt hq), if_pos hq]

theorem round64_of_neg {q : ℚ} (hq : q < 0) :
    round64 q = if pow2 1024 ≤ roundMag (-q) then negInf else fin (-roundMag (-q)) := by
  unfold round64
  rw [if_neg (ne_of_lt hq), if_neg (not_lt.2 (le_of_lt hq))]

/-- Rounding is monotone on the non-negative rationals: below a finite rounded value, the
rounded value is finite and not greater. -/
theorem round64_nonneg_mono {q₁ q₂ d : ℚ} (h0 : 0 ≤ q₁) (h : q₁ ≤ q₂)
    (hd : round64 q₂ = fin d) : ∃ n, round64 q₁ = fin n ∧ 0 ≤ n ∧ n ≤ d := by
  rcases eq_or_lt_of_le h0 with hz | hpos
  · subst hz
    refine ⟨0, round64_zero, le_refl _, ?_⟩
    rcases eq_or_lt_of_le h with hz₂ | hpos₂
    · subst hz₂
      rw [round64_zero] at hd
      cases hd; exact le_refl _
    · rw [round64_of_pos hpos₂] at hd
      by_cases hov : pow2 1024 ≤ roundMag q₂
      · rw [if_pos hov] at hd; cases hd
      · rw [if_neg hov] at hd
        cases hd
        exact roundMag_nonneg (le_of_lt hpos₂)
  · have hpos₂ : 0 < q₂ := lt_of_lt_of_le hpos h
    rw [round64_of_pos hpos₂] at hd
    by_cases hov : pow2 1024 ≤ roundMag q₂
    · rw [if_pos hov] at hd; cases hd
    · rw [if_neg hov] at hd
      cases hd
      have hm := roundMag_mono h
      have hov₁ : ¬ pow2 1024 ≤ roundMag q₁ := fun hc => hov (le_trans hc hm)
      exact ⟨roundMag q₁, by rw [round64_of_pos hpos, if_neg hov₁],
        roundMag_nonneg (le_of_lt hpos), hm⟩

/-- A rational between 0 and 1 rounds to a value between 0 and 1. -/
theorem round64_unit {t : ℚ} (h0 : 0 ≤ t) (h1 : t ≤ 1) :
    ∃ r, round64 t = fin r ∧ 0 ≤ r ∧ r ≤ 1 :=
  round64_nonneg_mono h0 h1 round64_one

/-- A rational not below the least positive binary64 value rounds to a positive value. -/
theorem round64_pos {q : ℚ} (hq : pow2 (-1074) ≤ q) :
    round64 q = posInf ∨ ∃ d, round64 q = fin d ∧ 0 < d := by
  have hq0 : 0 < q := lt_of_lt_of_le (pow2_pos _) hq
  rw [round64_of_pos hq0]
  by_cases hov : pow2 1024 ≤ roundMag q
  · left; rw [if_pos hov]
  · right; rw [if_neg hov]; exact ⟨_, rfl, roundMag_pos hq⟩

/-- A binary64 value is an integer multiple of `2 ^ -1074`. -/
theorem multiple_of_round64 {q : ℚ} (h : round64 q = fin q) :
    ∃ k : Int, q = (k : ℚ) * pow2 (-1074) := by
  rcases lt_trichotomy q 0 with hneg | hz | hpos
  · rw [round64_of_neg hneg] at h
    by_cases hov : pow2 1024 ≤ roundMag (-q)
    · rw [if_pos hov] at h; cases h
    · rw [if_neg hov] at h
      have hq : q = -roundMag (-q) := by
        injection h with h'; exact h'.symm
      obtain ⟨k, hk⟩ := roundMag_multiple (-q)
      refine ⟨-k, ?_⟩
      rw [hq, hk]; push_cast; ring
  · exact ⟨0, by simp [hz]⟩
  · rw [round64_of_pos hpos] at h
    by_cases hov : pow2 1024 ≤ roundMag q
    · rw [if_pos hov] at h; cases h
    · rw [if_neg hov] at h
      have hq : q = roundMag q := by
        injection h with h'; exact h'.symm
      obtain ⟨k, hk⟩ := roundMag_multiple q
      exact ⟨k, by rw [hq, hk]⟩

/-- Two distinct binary64 values differ by at least `2 ^ -1074`. -/
theorem gap_of_lt {x y : ℚ} (hx : round64 x = fin x) (hy : round64 y = fin y) (h : x < y) :
    pow2 (-1074) ≤ y - x := by
  obtain ⟨k₁, h₁⟩ := multiple_of_round64 hx
  obtain ⟨k₂, h₂⟩ := multiple_of_round64 hy
  have hp := pow2_pos (-1074)
  have hk : k₁ < k₂ := by
    by_contra hc
    have hle : (k₂ : ℚ) ≤ k₁ := by exact_mod_cast not_lt.1 hc
    have := mul_le_mul_of_nonneg_right hle (le_of_lt hp)
    rw [← h₁, ← h₂] at this
    linarith
  have hk' : (1 : ℚ) ≤ (k₂ : ℚ) - k₁ := by
    have : (1 : Int) ≤ k₂ - k₁ := by omega
    exact_mod_cast this
  calc pow2 (-1074) = 1 * pow2 (-1074) := (one_mul _).symm
    _ ≤ ((k₂ : ℚ) - k₁) * pow2 (-1074) := mul_le_mul_of_nonneg_right hk' (le_of_lt hp)
    _ = y - x := by rw [h₁, h₂]; ring

theorem sub_fin (a b : ℚ) : sub (fin a) (fin b) = round64 (a - b) := by
  show round64 (a + -b) = round64 (a - b)
  rw [sub_eq_add_neg]

theorem div_fin {a b : ℚ} (hb : b ≠ 0) : div (fin a) (fin b) = round64 (a / b) := by
  simp [div, hb]

end F64

/-- Sample values of the rounding: 1/3 and 4/3 are not binary64 values and round to their
nearest neighbours; a tie goes to the even neighbour (`2 ^ 53 + 1` down, `2 ^ 53 + 3` up, half
the least subnormal to 0); a sum or product beyond the largest finite value is `+Inf`. -/
theorem round64_samples :
    F64.round64 (1 / 3) = .fin (6004799503160661 / 18014398509481984) ∧
    F64.div (.fin 4) (.fin 3) = .fin (6004799503160661 / 4503599627370496) ∧
    F64.round64 (F64.pow2 53 + 1) = .fin (F64.pow2 53) ∧
    F64.round64 (F64.pow2 53 + 3) = .fin (F64.pow2 53 + 4) ∧
    F64.round64 (F64.pow2 (-1075)) = .fin 0 ∧
    F64.round64 (3 * F64.pow2 (-1075)) = .fin (F64.pow2 (-1073)) ∧
    F64.round64 (F64.pow2 1024 - F64.pow2 970 - 1) = .fin (F64.pow2 1024 - F64.pow2 971) ∧
    F64.round64 (F64.pow2 1024 - F64.pow2 970) = .posInf ∧
    F64.add (.fin (F64.pow2 1024 - F64.pow2 971)) (.fin (F64.pow2 1024 - F64.pow2 971)) =
      .posInf ∧
    F64.mul (.fin (F64.pow2 600)) (.fin (F64.pow2 600)) = .posInf := by
  with_unfolding_all decide

/-! ## Min-max scaling -/

theorem rowsWF_get? {m : Matrix} (h : RowsWF m) {i : String} {row : GoMap F64}
    (hi : m.get? i = some row) : row.WF :=
  h (i, row) (GoMap.mem_of_get? m hi)

theorem entry_scaleSimilitudes (sims : Matrix) (hwf : sims.WF) (hrows : RowsWF sims)
    (i j : String) :
    entry (scaleSimilitudes sims) i j =
      (entry sims i j).map (scaleValue (minMaxSim sims).1 (minMaxSim sims).2) := by
  unfold scaleSimilitudes entry
  have h := get?_foldl_set
    (fun (_ : String) (row : GoMap F64) =>
      row.foldl (fun r s => GoMap.set r s.1
        (scaleValue (minMaxSim sims).1 (minMaxSim sims).2 s.2)) ([] : GoMap F64))
    sims [] hwf i
  simp only [] at h ⊢
  rw [h]
  cases hi : GoMap.get? sims i with
  | none => simp [GoMap.get?]
  | some row =>
    have h' := get?_foldl_set
      (fun (_ : String) (s : F64) => scaleValue (minMaxSim sims).1 (minMaxSim sims).2 s)
      row [] (rowsWF_get? hrows hi) j
    have h'' : GoMap.get? (row.foldl (fun r s => GoMap.set r s.1
          (scaleValue (minMaxSim sims).1 (minMaxSim sims).2 s.2)) ([] : GoMap F64)) j =
        (GoMap.get? row j).map (scaleValue (minMaxSim sims).1 (minMaxSim sims).2) :=
      h'.trans (by cases GoMap.get? row j <;> rfl)
    exact h''

theorem keys_scaleSimilitudes (sims : Matrix) (hwf : sims.WF) (i : String) :
    ((scaleSimilitudes sims).get? i).isSome = (sims.get? i).isSome := by
  unfold scaleSimilitudes
  have h := get?_foldl_set
    (fun (_ : String) (row : GoMap F64) =>
      row.foldl (fun r s => GoMap.set r s.1
        (scaleValue (minMaxSim sims).1 (minMaxSim sims).2 s.2)) ([] : GoMap F64))
    sims [] hwf i
  simp only [] at h ⊢
  rw [h]
  cases GoMap.get? sims i <;> simp [GoMap.get?]

/-- The two nested loops of the search visit the entries one after the other. -/
theorem minMaxSim_eq_foldl (sims : Matrix) :
    minMaxSim sims =
      (entries sims).foldl
        (fun mm s => (if F64.lt s mm.1 then s else mm.1, if F64.gt s mm.2 then s else mm.2))
        (F64.posInf, F64.negInf) := by
  unfold minMaxSim entries
  generalize (F64.posInf, F64.negInf) = acc
  induction sims generalizing acc with
  | nil => rfl
  | cons e rest ih =>
    rw [List.foldl_cons, ih, List.flatMap_cons, List.foldl_append, List.foldl_map]

theorem foldl_minMax_fin (qs : List ℚ) :
    ∀ a b : ℚ,
      (qs.map F64.fin).foldl
        (fun mm s => (if F64.lt s mm.1 then s else mm.1, if F64.gt s mm.2 then s else mm.2))
        (F64.fin a, F64.fin b) = (F64.fin (qs.foldl min a), F64.fin (qs.foldl max b)) := by
  induction qs with
  | nil => intro a b; rfl
  | cons q qs ih =>
    intro a b
    have h1 : (if F64.lt (F64.fin q) (F64.fin a) then F64.fin q else F64.fin a) =
        F64.fin (min a q) := by
      by_cases h : q < a
      · simp [F64.lt, h, min_eq_right (le_of_lt h)]
      · simp [F64.lt, h, min_eq_left (not_lt.1 h)]
    have h2 : (if F64.gt (F64.fin q) (F64.fin b) then F64.fin q else F64.fin b) =
        F64.fin (max b q) := by
      by_cases h : b < q
      · simp [F64.gt, F64.lt, h, max_eq_right (le_of_lt h)]
      · simp [F64.gt, F64.lt, h, max_eq_left (not_lt.1 h)]
    simp only [List.map_cons, List.foldl_cons, h1, h2]
    exact ih _ _

theorem foldl_min_spec (qs : List ℚ) :
    ∀ a : ℚ, qs.foldl min a ≤ a ∧ (∀ q ∈ qs, qs.foldl min a ≤ q) ∧
      (qs.foldl min a = a ∨ qs.foldl min a ∈ qs) := by
  induction qs with
  | nil => intro a; simp
  | cons q qs ih =>
    intro a
    obtain ⟨h1, h2, h3⟩ := ih (min a q)
    refine ⟨le_trans h1 (min_le_left _ _), ?_, ?_⟩
    · intro x hx
      rcases List.mem_cons.1 hx with rfl | hx
      · exact le_trans h1 (min_le_right _ _)
      · exact h2 x hx
    · rcases h3 with h3 | h3
      · rw [List.foldl_cons, h3]
        rcases min_choice a q with h | h
        · left; exact h
        · right; rw [h]; exact List.mem_cons_self _ _
      · right; exact List.mem_cons_of_mem _ h3

theorem foldl_max_spec (qs : List ℚ) :
    ∀ b : ℚ, b ≤ qs.foldl max b ∧ (∀ q ∈ qs, q ≤ qs.foldl max b) ∧
      (qs.foldl max b = b ∨ qs.foldl max b ∈ qs) := by
  induction qs with
  | nil => intro b; simp
  | cons q qs ih =>
    intro b
    obtain ⟨h1, h2, h3⟩ := ih (max b q)
    refine ⟨le_trans (le_max_left _ _) h1, ?_, ?_⟩
    · intro x hx
      rcases List.mem_cons.1 hx with rfl | hx
      · exact le_trans (le_max_right _ _) h1
      · exact h2 x hx
    · rcases h3 with h3 | h3
      · rw [List.foldl_cons, h3]
        rcases max_choice b q with h | h
        · left; exact h
        · right; rw [h]; exact List.mem_cons_self _ _
      · right; exact List.mem_cons_of_mem _ h3

theorem exists_map_fin (l : List F64) (h : ∀ x ∈ l, x.isFinite = true) :
    ∃ qs : List ℚ, l = qs.map F64.fin := by
  induction l with
  | nil => exact ⟨[], rfl⟩
  | cons x xs ih =>
    obtain ⟨qs, hqs⟩ := ih (fun y hy => h y (List.mem_cons_of_mem _ hy))
    have hx := h x (List.mem_cons_self _ _)
    cases x with
    | fin q => exact ⟨q :: qs, by simp [hqs]⟩
    | posInf => simp [F64.isFinite] at hx
    | negInf => simp [F64.isFinite] at hx
    | nan => simp [F64.isFinite] at hx

/-- On a matrix of finite entries the first loop nest of `scaleSimilitudes` finds the least and
the greatest entry. -/
theorem minMaxSim_finite (sims : Matrix) (mn mx : ℚ)
    (hfin : ∀ x ∈ entries sims, x.isFinite = true)
    (hmn : F64.fin mn ∈ entries sims) (hmx : F64.fin mx ∈ entries sims)
    (hle : ∀ q, F64.fin q ∈ entries sims → mn ≤ q ∧ q ≤ mx) :
    minMaxSim sims = (F64.fin mn, F64.fin mx) := by
  rw [minMaxSim_eq_foldl]
  obtain ⟨qs, hqs⟩ := exists_map_fin _ hfin
  rw [hqs] at hmn hmx hle ⊢
  have hmem : ∀ q, F64.fin q ∈ qs.map F64.fin ↔ q ∈ qs := by
    intro q; simp
  cases qs with
  | nil => simp at hmn
  | cons q qs =>
    have hstart :
        ((if F64.lt (F64.fin q) (F64.posInf, F64.negInf).1 then F64.fin q
          else (F64.posInf, F64.negInf).1,
          if F64.gt (F64.fin q) (F64.posInf, F64.negInf).2 then F64.fin q
          else (F64.posInf, F64.negInf).2) : F64 × F64) = (F64.fin q, F64.fin q) := by
      simp [F64.lt, F64.gt]
    rw [List.map_cons, List.foldl_cons, hstart, foldl_minMax_fin]
    obtain ⟨a1, a2, a3⟩ := foldl_min_spec qs q
    obtain ⟨b1, b2, b3⟩ := foldl_max_spec qs q
    have hmin_mem : qs.foldl min q ∈ q :: qs := by
      rcases a3 with h | h
      · rw [h]; exact List.mem_cons_self _ _
      · exact List.mem_cons_of_mem _ h
    have hmax_mem : qs.foldl max q ∈ q :: qs := by
      rcases b3 with h | h
      · rw [h]; exact List.mem_cons_self _ _
      · exact List.mem_cons_of_mem _ h
    have hall_min : ∀ x ∈ q :: qs, qs.foldl min q ≤ x := by
      intro x hx
      rcases List.mem_cons.1 hx with rfl | hx
      · exact a1
      · exact a2 x hx
    have hall_max : ∀ x ∈ q :: qs, x ≤ qs.foldl max q := by
      intro x hx
      rcases List.mem_cons.1 hx with rfl | hx
      · exact b1
      · exact b2 x hx
    have e1 : qs.foldl min q = mn :=
      le_antisymm (hall_min mn ((hmem mn).1 hmn)) (hle _ ((hmem _).2 hmin_mem)).1
    have e2 : qs.foldl max q = mx :=
      le_antisymm (hle _ ((hmem _).2 hmax_mem)).2 (hall_max mx ((hmem mx).1 hmx))
    rw [e1, e2]

theorem entry_mem_entries {m : Matrix} {i j : String} {x : F64} (h : entry m i j = some x) :
    x ∈ entries m := by
  unfold entry at h
  cases hi : GoMap.get? m i with
  | none => simp [hi] at h
  | some row =>
    rw [hi] at h
    have h1 := GoMap.mem_of_get? m hi
    have h2 := GoMap.mem_of_get? row h
    unfold entries
    exact List.mem_flatMap.2 ⟨(i, row), h1, List.mem_map.2 ⟨(j, x), h2, rfl⟩⟩

/-- C3, as stated, fails. On a matrix that holds an infinity the maximum `+Inf` is strictly
greater than the minimum `0`, and the entry holding the maximum is scaled to
`(Inf - 0) / (Inf - 0) = NaN`, not to 1. -/
theorem scale_infinite_counterexample :
    minMaxSim [("a", [("b", .posInf), ("c", .fin 0)])] = (.fin 0, .posInf) ∧
    F64.lt (.fin 0) .posInf = true ∧
    entry [("a", [("b", .posInf), ("c", .fin 0)])] "a" "b" = some .posInf ∧
    entry (scaleSimilitudes [("a", [("b", .posInf), ("c", .fin 0)])]) "a" "b" = some .nan := by
  with_unfolding_all decide

/-- The same failure on finite entries: with the entries `2 ^ 1023`, `-2 ^ 1023` and `0` the
difference `max - min` overflows to `+Inf`, the maximum is scaled to `Inf / Inf = NaN` and the
entry `0` to `2 ^ 1023 / Inf = 0`. -/
theorem scale_overflow_example :
    F64.sub (.fin (F64.pow2 1023)) (.fin (-F64.pow2 1023)) = .posInf ∧
    entry (scaleSimilitudes
        [("a", [("b", .fin (F64.pow2 1023)), ("c", .fin (-F64.pow2 1023)), ("d", .fin 0)])])
        "a" "b" = some .nan ∧
    entry (scaleSimilitudes
        [("a", [("b", .fin (F64.pow2 1023)), ("c", .fin (-F64.pow2 1023)), ("d", .fin 0)])])
        "a" "d" = some (.fin 0) := by
  with_unfolding_all decide

/-- C3, amended: for a similarity matrix whose entries are all finite float64 values, with least
entry `mn` strictly below the greatest entry `mx` and a finite float64 difference `mx - mn`,
`scaleSimilitudes` returns a matrix with the same keys in which the entry for a value `q` is the
float64 quotient `(q - mn) / (mx - mn)`; it is a finite value in `[0, 1]`, it is 1 where the entry
held the maximum and 0 where it held the minimum. -/
theorem scale_finite (sims : Matrix) (mn mx : ℚ) (hwf : sims.WF) (hrows : RowsWF sims)
    (hfin : ∀ x ∈ entries sims, x.isFinite = true)
    (hrep : ∀ x ∈ entries sims, x.isFloat64 = true)
    (hmn : F64.fin mn ∈ entries sims) (hmx : F64.fin mx ∈ entries sims)
    (hle : ∀ q, F64.fin q ∈ entries sims → mn ≤ q ∧ q ≤ mx) (hlt : mn < mx)
    (hdiff : (F64.sub (F64.fin mx) (F64.fin mn)).isFinite = true) :
    (∀ i, ((scaleSimilitudes sims).get? i).isSome = (sims.get? i).isSome) ∧
    (∀ i j, (entry (scaleSimilitudes sims) i j).isSome = (entry sims i j).isSome) ∧
    (∀ i j q, entry sims i j = some (F64.fin q) →
      entry (scaleSimilitudes sims) i j =
        some (F64.div (F64.sub (F64.fin q) (F64.fin mn)) (F64.sub (F64.fin mx) (F64.fin mn))) ∧
      ∃ r, F64.div (F64.sub (F64.fin q) (F64.fin mn)) (F64.sub (F64.fin mx) (F64.fin mn)) =
        F64.fin r ∧ 0 ≤ r ∧ r ≤ 1) ∧
    (∀ i j, entry sims i j = some (F64.fin mx) →
      entry (scaleSimilitudes sims) i j = some (F64.fin 1)) ∧
    (∀ i j, entry sims i j = some (F64.fin mn) →
      entry (scaleSimilitudes sims) i j = some (F64.fin 0)) := by
  have hmm := minMaxSim_finite sims mn mx hfin hmn hmx hle
  have hrmn : F64.round64 mn = F64.fin mn := by
    simpa [F64.isFloat64] using hrep _ hmn
  have hrmx : F64.round64 mx = F64.fin mx := by
    simpa [F64.isFloat64] using hrep _ hmx
  -- the denominator is a finite positive value
  obtain ⟨d, hd, hdpos⟩ : ∃ d, F64.round64 (mx - mn) = F64.fin d ∧ 0 < d := by
    rcases F64.round64_pos (F64.gap_of_lt hrmn hrmx hlt) with hinf | h
    · rw [F64.sub_fin, hinf] at hdiff
      simp [F64.isFinite] at hdiff
    · exact h
  have hd0 : d ≠ 0 := ne_of_gt hdpos
  have hval : ∀ i j q, entry sims i j = some (F64.fin q) →
      entry (scaleSimilitudes sims) i j =
        some (F64.div (F64.sub (F64.fin q) (F64.fin mn))
          (F64.sub (F64.fin mx) (F64.fin mn))) := by
    intro i j q h
    rw [entry_scaleSimilitudes sims hwf hrows, h, hmm]
    rfl
  refine ⟨keys_scaleSimilitudes sims hwf, ?_, ?_, ?_, ?_⟩
  · intro i j
    rw [entry_scaleSimilitudes sims hwf hrows]
    cases entry sims i j <;> rfl
  · intro i j q h
    refine ⟨hval i j q h, ?_⟩
    have hb := hle q (entry_mem_entries h)
    obtain ⟨n, hn, hn0, hnd⟩ :=
      F64.round64_nonneg_mono (show 0 ≤ q - mn by linarith) (show q - mn ≤ mx - mn by linarith) hd
    rw [F64.sub_fin, F64.sub_fin, hn, hd, F64.div_fin hd0]
    exact F64.round64_unit (div_nonneg hn0 (le_of_lt hdpos)) ((div_le_one hdpos).2 hnd)
  · intro i j h
    rw [hval i j mx h, F64.sub_fin, hd, F64.div_fin hd0, div_self hd0, F64.round64_one]
  · intro i j h
    rw [hval i j mn h, F64.sub_fin, F64.sub_fin, hd, sub_self, F64.round64_zero,
      F64.div_fin hd0, zero_div, F64.round64_zero]

/-- Witness for the amended C3: the entries 0, 3, 1 are scaled to 0, 1 and the float64 nearest
to 1/3. -/
theorem scale_finite_witness :
    entry (scaleSimilitudes [("a", [("b", .fin 0), ("c", .fin 3)]), ("b", [("a", .fin 1)])])
        "a" "c" = some (.fin 1) ∧
    entry (scaleSimilitudes [("a", [("b", .fin 0), ("c", .fin 3)]), ("b", [("a", .fin 1)])])
        "a" "b" = some (.fin 0) ∧
    entry (scaleSimilitudes [("a", [("b", .fin 0), ("c", .fin 3)]), ("b", [("a", .fin 1)])])
        "b" "a" = some (.fin (6004799503160661 / 18014398509481984)) :=
  have h := scale_finite [("a", [("b", .fin 0), ("c", .fin 3)]), ("b", [("a", .fin 1)])] 0 3
    (by decide) (by decide) (by with_unfolding_all decide) (by with_unfolding_all decide)
    (by with_unfolding_all decide) (by with_unfolding_all decide)
    (by
      intro q hq
      simp [entries] at hq
      rcases hq with rfl | rfl | rfl <;> norm_num)
    (by norm_num) (by with_unfolding_all decide)
  ⟨h.2.2.2.1 "a" "c" (by with_unfolding_all decide),
   h.2.2.2.2 "a" "b" (by with_unfolding_all decide),
   (h.2.2.1 "b" "a" 1 (by with_unfolding_all decide)).1.trans
     (congrArg some
       (show F64.div (F64.sub (.fin 1) (.fin 0)) (F64.sub (.fin 3) (.fin 0)) =
          .fin (6004799503160661 / 18014398509481984) from by with_unfolding_all decide))⟩

/-! ## Degenerate scaling -/

/-- On a non-empty matrix whose entries all hold the same finite value every scaled entry is
`0 / 0 = NaN`. -/
theorem scale_degenerate_all_nan (sims : Matrix) (q : ℚ) (hwf : sims.WF) (hrows : RowsWF sims)
    (hall : ∀ x ∈ entries sims, x = F64.fin q) (hne : entries sims ≠ [])
    (i j : String) (x : F64) (h : entry sims i j = some x) :
    entry (scaleSimilitudes sims) i j = some F64.nan := by
  have hq : F64.fin q ∈ entries sims := by
    obtain ⟨y, hy⟩ := List.exists_mem_of_ne_nil _ hne
    rw [← hall y hy]; exact hy
  have hmm := minMaxSim_finite sims q q
    (fun y hy => by rw [hall y hy]; rfl) hq hq
    (fun r hr => by
      have := hall _ hr
      cases this
      exact ⟨le_refl _, le_refl _⟩)
  rw [entry_scaleSimilitudes sims hwf hrows, h, hmm, hall x (entry_mem_entries h)]
  simp [scaleValue, F64.sub_fin, F64.round64_zero, F64.div, F64.infTimes]

/-- C4 fails on the code: on the one-user partition of the specification the two similarity
entries are both 15, so `maxSim == minSim` and every scaled entry is `0 / 0 = NaN`. -/
theorem scale_degenerate_is_nan :
    calculateCosineSimilarities [("u1", [("p1", .fin 5), ("p2", .fin 3)])] =
      [("p1", [("p2", .fin 15)]), ("p2", [("p1", .fin 15)])] ∧
    scaleSimilitudes [("p1", [("p2", .fin 15)]), ("p2", [("p1", .fin 15)])] =
      [("p1", [("p2", .nan)]), ("p2", [("p1", .nan)])] := by
  with_unfolding_all decide

/-! ## Prediction -/

namespace GoMap

variable {V : Type}

theorem mem_set {m : GoMap V} {k : String} {v : V} {e : String × V} (h : e ∈ m.set k v) :
    e = (k, v) ∨ e ∈ m := by
  induction m with
  | nil => simp [set] at h; exact Or.inl h
  | cons e₀ rest ih =>
    obtain ⟨k₀, v₀⟩ := e₀
    by_cases hk : k₀ = k
    · subst hk
      simp [set] at h
      rcases h with h | h
      · exact Or.inl h
      · exact Or.inr (List.mem_cons_of_mem _ h)
    · simp [set, hk] at h
      rcases h with h | h
      · exact Or.inr (h ▸ List.mem_cons_self _ _)
      · rcases ih h with h | h
        · exact Or.inl h
        · exact Or.inr (List.mem_cons_of_mem _ h)

theorem keys_set (m : GoMap V) (k : String) (v : V) :
    keys (m.set k v) = if k ∈ keys m then keys m else keys m ++ [k] := by
  induction m with
  | nil => simp [set, keys]
  | cons e₀ rest ih =>
    obtain ⟨k₀, v₀⟩ := e₀
    by_cases hk : k₀ = k
    · subst hk; simp [set, keys]
    · have hk' : ¬ k = k₀ := fun h => hk h.symm
      have ih' : List.map Prod.fst (set rest k v) =
          if k ∈ List.map Prod.fst rest then List.map Prod.fst rest
          else List.map Prod.fst rest ++ [k] := ih
      have hmem : k ∈ List.map Prod.fst ((k₀, v₀) :: rest) ↔ k ∈ List.map Prod.fst rest := by
        simp [hk']
      unfold keys
      simp only [set, hk, if_false, List.map_cons, ih']
      by_cases hin : k ∈ List.map Prod.fst rest
      · rw [if_pos hin, if_pos (List.mem_cons_of_mem _ hin)]
      · have : ¬ k ∈ k₀ :: List.map Prod.fst rest := by
          simpa [hk'] using hin
        rw [if_neg hin, if_neg this]; rfl

theorem WF_set {m : GoMap V} (h : m.WF) (k : String) (v : V) : (m.set k v).WF := by
  unfold WF at h ⊢
  rw [keys_set]
  by_cases hin : k ∈ keys m
  · rw [if_pos hin]; exact h
  · rw [if_neg hin]
    exact List.Nodup.append h (List.nodup_singleton k) (by simpa using hin)

end GoMap

theorem ResultsInv_set {res : GoMap Result} (h : ResultsInv res) (k : String) (x : F64)
    (c : String) : ResultsInv (res.set k ⟨k, x, c⟩) := by
  refine ⟨GoMap.WF_set h.1 k _, ?_⟩
  intro e he
  rcases GoMap.mem_set he with rfl | he
  · rfl
  · exact h.2 e he

theorem ResultsInv_predictInner (sims : Matrix) (p : String) (r : F64) (res : GoMap Result)
    (h : ResultsInv res) : ResultsInv (predictInner sims p r res) := by
  unfold predictInner
  generalize (GoMap.get? sims p).getD [] = row
  induction row generalizing res with
  | nil => exact h
  | cons s rest ih => exact ih _ (ResultsInv_set h _ _ _)

theorem ResultsInv_items (sims : Matrix) (items : GoMap F64) (res : GoMap Result)
    (h : ResultsInv res) :
    ResultsInv (items.foldl (fun res p => predictInner sims p.1 p.2 res) res) := by
  induction items generalizing res with
  | nil => exact h
  | cons p rest ih => exact ih _ (ResultsInv_predictInner sims _ _ _ h)

theorem ResultsInv_predictResults (sims partition : Matrix) :
    ResultsInv (predictResults sims partition) := by
  unfold predictResults
  have h0 : ResultsInv ([] : GoMap Result) := ⟨List.nodup_nil, by simp⟩
  generalize ([] : GoMap Result) = res at h0
  induction partition generalizing res with
  | nil => exact h0
  | cons e rest ih => exact ih _ (ResultsInv_items sims _ _ h0)

theorem get?_predictInner (sims : Matrix) (hrows : RowsWF sims) (p : String) (r : F64)
    (res : GoMap Result) (j : String) :
    GoMap.get? (predictInner sims p r res) j =
      ((entry sims p j).map (fun s => (⟨j, F64.mul s r, "unknown"⟩ : Result))).or
        (GoMap.get? res j) := by
  unfold predictInner entry
  cases hp : GoMap.get? sims p with
  | none => simp [GoMap.get?]
  | some row =>
    have h := get?_foldl_set (fun (k : String) (s : F64) => (⟨k, F64.mul s r, "unknown"⟩ : Result))
      row res (rowsWF_get? hrows hp) j
    exact h

theorem get?_items (sims : Matrix) (hrows : RowsWF sims) (items : GoMap F64) :
    ∀ (res : GoMap Result) (j : String),
      GoMap.get? (items.foldl (fun res p => predictInner sims p.1 p.2 res) res) j =
        lastPrediction sims j items (GoMap.get? res j) := by
  induction items with
  | nil => intro res j; rfl
  | cons p rest ih =>
    intro res j
    rw [List.foldl_cons, ih, get?_predictInner sims hrows]
    unfold lastPrediction
    rw [List.foldl_cons]
    cases entry sims p.1 j <;> rfl

theorem lastPrediction_append (sims : Matrix) (j : String) (l₁ l₂ : List (String × F64))
    (init : Option Result) :
    lastPrediction sims j (l₁ ++ l₂) init =
      lastPrediction sims j l₂ (lastPrediction sims j l₁ init) := by
  unfold lastPrediction
  rw [List.foldl_append]

theorem get?_predictFold (sims : Matrix) (hrows : RowsWF sims) (partition : Matrix) :
    ∀ (res : GoMap Result) (j : String),
      GoMap.get? (partition.foldl
          (fun res e => e.2.foldl (fun res p => predictInner sims p.1 p.2 res) res) res) j =
        lastPrediction sims j (ratedItems partition) (GoMap.get? res j) := by
  induction partition with
  | nil => intro res j; rfl
  | cons e rest ih =>
    intro res j
    rw [List.foldl_cons, ih, get?_items sims hrows]
    unfold ratedItems
    rw [List.flatMap_cons, lastPrediction_append]

theorem lastPrediction_eq_getLast? (sims : Matrix) (j : String) (visited : List (String × F64)) :
    ∀ init : Option Result,
      lastPrediction sims j visited init =
        (((visited.filterMap (fun p =>
            (entry sims p.1 j).map (fun s => F64.mul s p.2))).getLast?).map
          (fun x => (⟨j, x, "unknown"⟩ : Result))).or init := by
  induction visited with
  | nil => intro init; rfl
  | cons p rest ih =>
    intro init
    have hstep : lastPrediction sims j (p :: rest) init =
        lastPrediction sims j rest
          (match entry sims p.1 j with
           | some s => some ⟨j, F64.mul s p.2, "unknown"⟩
           | none => init) := rfl
    rw [hstep, ih]
    cases hp : entry sims p.1 j with
    | none => simp [List.filterMap_cons, hp]
    | some s =>
      simp only [List.filterMap_cons, hp, Option.map_some', List.getLast?_cons]
      cases (rest.filterMap (fun p =>
            (entry sims p.1 j).map (fun s => F64.mul s p.2))).getLast? <;> rfl

theorem get?_predictResults (sims partition : Matrix) (hrows : RowsWF sims) (j : String) :
    GoMap.get? (predictResults sims partition) j =
      ((predictionsFor sims partition j).getLast?).map (fun x => ⟨j, x, "unknown"⟩) := by
  unfold predictResults predictionsFor
  rw [get?_predictFold sims hrows, lastPrediction_eq_getLast?]
  cases ((ratedItems partition).filterMap (fun p =>
            (entry sims p.1 j).map (fun s => F64.mul s p.2))).getLast? <;> rfl

theorem predictionsFor_ne_nil_iff (sims partition : Matrix) (j : String) :
    predictionsFor sims partition j ≠ [] ↔
      ∃ e ∈ partition, ∃ p ∈ e.2, (entry sims p.1 j).isSome = true := by
  unfold predictionsFor ratedItems
  constructor
  · intro hne
    obtain ⟨x, hx⟩ := List.exists_mem_of_ne_nil _ hne
    obtain ⟨p, hp, hpx⟩ := List.mem_filterMap.1 hx
    obtain ⟨e, he, hpe⟩ := List.mem_flatMap.1 hp
    refine ⟨e, he, p, hpe, ?_⟩
    cases h : entry sims p.1 j with
    | none => simp [h] at hpx
    | some s => rfl
  · rintro ⟨e, he, p, hpe, hs⟩
    obtain ⟨s, hs'⟩ := Option.isSome_iff_exists.1 hs
    exact List.ne_nil_of_mem (List.mem_filterMap.2
      ⟨p, List.mem_flatMap.2 ⟨e, he, hpe⟩, show _ = some (F64.mul s p.2) by simp [hs']⟩)

/-- C5: `predictRatings` returns records with pairwise distinct product ids, one for every
target `j` such that some user of the partition rated an item `i` with an entry `scaled[i][j]`
and no other; the record of `j` has category "unknown" and stars `scaled[i][j] * rating[i]` for
the last pair (user, `i`) visited that has such an entry. -/
theorem predictRatings_spec (sims partition : Matrix) (hrows : RowsWF sims) :
    ((predictRatings sims partition).map Result.ProductID).Nodup ∧
    (∀ j, (∃ r ∈ predictRatings sims partition, r.ProductID = j) ↔
      ∃ e ∈ partition, ∃ p ∈ e.2, (entry sims p.1 j).isSome = true) ∧
    (∀ r, r ∈ predictRatings sims partition ↔
      ∃ x, (predictionsFor sims partition r.ProductID).getLast? = some x ∧
        r = ⟨r.ProductID, x, "unknown"⟩) := by
  obtain ⟨hwf, hkey⟩ := ResultsInv_predictResults sims partition
  have hget := get?_predictResults sims partition hrows
  have hmem : ∀ r, r ∈ predictRatings sims partition ↔
      GoMap.get? (predictResults sims partition) r.ProductID = some r := by
    intro r
    unfold predictRatings
    constructor
    · intro h
      obtain ⟨e, he, rfl⟩ := List.mem_map.1 h
      have := GoMap.get?_of_mem _ hwf (show (e.1, e.2) ∈ predictResults sims partition from he)
      rw [hkey e he]; exact this
    · intro h
      exact List.mem_map.2 ⟨_, GoMap.mem_of_get? _ h, rfl⟩
  have hlast : ∀ r, r ∈ predictRatings sims partition ↔
      ∃ x, (predictionsFor sims partition r.ProductID).getLast? = some x ∧
        r = ⟨r.ProductID, x, "unknown"⟩ := by
    intro r
    rw [hmem, hget]
    cases (predictionsFor sims partition r.ProductID).getLast? with
    | none => simp
    | some x =>
      simp only [Option.map_some', Option.some.injEq, exists_eq_left']
      exact eq_comm
  refine ⟨?_, ?_, hlast⟩
  · have : (predictRatings sims partition).map Result.ProductID =
        GoMap.keys (predictResults sims partition) := by
      unfold predictRatings GoMap.keys
      rw [List.map_map]
      exact List.map_congr_left (fun e he => hkey e he)
    rw [this]; exact hwf
  · intro j
    rw [← predictionsFor_ne_nil_iff]
    constructor
    · rintro ⟨r, hr, rfl⟩
      obtain ⟨x, hx, -⟩ := (hlast r).1 hr
      intro hnil
      rw [hnil] at hx
      simp at hx
    · intro hne
      obtain ⟨x, hx⟩ := Option.isSome_iff_exists.1 (List.getLast?_isSome.2 hne)
      exact ⟨⟨j, x, "unknown"⟩, (hlast _).2 ⟨x, hx, rfl⟩, rfl⟩

/-- Witness for C5: two users predict the target `b` through the item `a`; the record kept
is the one of the user visited last (`1 * 7`), not the sum with the earlier `1 * 2`. -/
theorem predictRatings_witness :
    (⟨"b", .fin 7, "unknown"⟩ : Result) ∈
      predictRatings [("a", [("b", .fin 1), ("c", .fin 3)])]
        [("u", [("a", .fin 2), ("b", .fin 2)]), ("v", [("a", .fin 7)])] :=
  ((predictRatings_spec [("a", [("b", .fin 1), ("c", .fin 3)])]
      [("u", [("a", .fin 2), ("b", .fin 2)]), ("v", [("a", .fin 7)])] (by decide)).2.2
    ⟨"b", .fin 7, "unknown"⟩).2 ⟨.fin 7, by with_unfolding_all decide, rfl⟩

/-! ## Aggregation -/

/-- C7 fails on the code for a negative maximum: the clamp only lowers `maxResults` to the
number of results, and the slice expression `finalResults[:-1]` is out of bounds. With the
maximum 1 the same results are sorted and cut to the best one. -/
theorem sortAndTruncate_negative :
    sortAndTruncate [⟨"p1", .fin 2, "books"⟩, ⟨"p2", .fin 15, "books"⟩] (-1) =
      .error .sliceBoundsOutOfRange ∧
    sortAndTruncate [⟨"p1", .fin 2, "books"⟩, ⟨"p2", .fin 15, "books"⟩] 1 =
      .ok [⟨"p2", .fin 15, "books"⟩] := by
  constructor <;> with_unfolding_all rfl

theorem length_insertSlice (less : Result → Result → Bool) (x : Result) (l : List Result) :
    (insertSlice less x l).length = l.length + 1 := by
  induction l with
  | nil => rfl
  | cons y ys ih =>
    by_cases h : less y x <;> simp [insertSlice, h, ih]

theorem length_sortSlice (less : Result → Result → Bool) (l : List Result) :
    (sortSlice less l).length = l.length := by
  induction l with
  | nil => rfl
  | cons x xs ih => simp [sortSlice, length_insertSlice, ih]

/-- A negative maximum always faults, whatever the results. -/
theorem sortAndTruncate_of_neg (finalResults : List Result) (maxResults : Int)
    (h : maxResults < 0) :
    sortAndTruncate finalResults maxResults = .error .sliceBoundsOutOfRange := by
  have h1 : ¬ maxResults > ((sortSlice starsGreater finalResults).length : Int) := by omega
  simp [sortAndTruncate, h1, h]

/-- A non-negative maximum gives the first `min maxResults len` sorted results. -/
theorem sortAndTruncate_of_nonneg (finalResults : List Result) (maxResults : Int)
    (h : 0 ≤ maxResults) :
    ∃ out, sortAndTruncate finalResults maxResults = .ok out ∧
      out = (sortSlice starsGreater finalResults).take maxResults.toNat ∧
      out.length = min maxResults.toNat finalResults.length := by
  refine ⟨(sortSlice starsGreater finalResults).take maxResults.toNat, ?_, rfl, ?_⟩
  · unfold sortAndTruncate
    by_cases h1 : maxResults > ((sortSlice starsGreater finalResults).length : Int)
    · have h2 : ¬ ((sortSlice starsGreater finalResults).length : Int) < 0 := by omega
      have h3 : (sortSlice starsGreater finalResults).length ≤ maxResults.toNat := by omega
      simp [h1, List.take_of_length_le h3]
    · have h2 : ¬ maxResults < 0 := by omega
      simp [h1, h2]
  · rw [List.length_take, length_sortSlice]

/-! ## The matrix builder -/

theorem entry_buildStep (m : Matrix) (r : Product) (u p : String) :
    entry (buildStep m r) u p =
      if r.ReviewerID = u ∧ r.ProductID = p then some r.Stars else entry m u p := by
  unfold buildStep
  simp only [entry_set]
  by_cases hu : r.ReviewerID = u
  · subst hu
    have hrow : ∀ (m' : Matrix) (k : String),
        GoMap.get? ((GoMap.get? m' r.ReviewerID).getD []) k = entry m' r.ReviewerID k := by
      intro m' k
      unfold entry
      cases GoMap.get? m' r.ReviewerID <;> simp [GoMap.get?]
    by_cases hp : r.ProductID = p
    · subst hp; simp [GoMap.get?_set_self]
    · simp only [if_true, hp, and_false, if_false, GoMap.get?_set_ne _ _ hp, hrow]
      exact entry_ensure m r.ReviewerID r.ReviewerID p
  · simp only [hu, if_false, false_and]
    exact entry_ensure m r.ReviewerID u p

theorem get?_buildStep_isSome (m : Matrix) (r : Product) (u : String) :
    (GoMap.get? (buildStep m r) u).isSome =
      (decide (r.ReviewerID = u) || (GoMap.get? m u).isSome) := by
  unfold buildStep
  by_cases hu : r.ReviewerID = u
  · subst hu; simp [GoMap.get?_set_self]
  · simp only [GoMap.get?_set_ne _ _ hu, hu, decide_False, Bool.false_or]
    by_cases h : (GoMap.get? m r.ReviewerID).isSome
    · simp [h]
    · rw [if_neg h, GoMap.get?_set_ne _ _ hu]

theorem entry_buildFold (products : List Product) :
    ∀ (m : Matrix) (u p : String),
      entry (products.foldl buildStep m) u p =
        (((recordsOf products u p).getLast?).map Product.Stars).or (entry m u p) := by
  induction products with
  | nil => intro m u p; simp [recordsOf]
  | cons r rest ih =>
    intro m u p
    rw [List.foldl_cons, ih, entry_buildStep]
    unfold recordsOf at ih ⊢
    by_cases hc : r.ReviewerID = u ∧ r.ProductID = p
    · rw [if_pos hc, List.filter_cons_of_pos (by simpa using hc), List.getLast?_cons]
      cases (rest.filter (fun r => decide (r.ReviewerID = u ∧ r.ProductID = p))).getLast? <;>
        simp
    · rw [if_neg hc, List.filter_cons_of_neg (by simpa using hc)]

theorem get?_buildFold_isSome (products : List Product) :
    ∀ (m : Matrix) (u : String),
      (GoMap.get? (products.foldl buildStep m) u).isSome =
        (products.any (fun r => decide (r.ReviewerID = u)) || (GoMap.get? m u).isSome) := by
  induction products with
  | nil => intro m u; simp
  | cons r rest ih =>
    intro m u
    rw [List.foldl_cons, ih, get?_buildStep_isSome, List.any_cons]
    cases rest.any (fun r => decide (r.ReviewerID = u)) <;>
      cases decide (r.ReviewerID = u) <;> simp

theorem WF_buildStep {m : Matrix} (h : m.WF ∧ RowsWF m) (r : Product) :
    (buildStep m r).WF ∧ RowsWF (buildStep m r) := by
  have hens : (if (GoMap.get? m r.ReviewerID).isSome then m else GoMap.set m r.ReviewerID []).WF ∧
      RowsWF (if (GoMap.get? m r.ReviewerID).isSome then m else GoMap.set m r.ReviewerID []) := by
    by_cases hs : (GoMap.get? m r.ReviewerID).isSome
    · simpa [hs] using h
    · rw [if_neg hs]
      refine ⟨GoMap.WF_set h.1 _ _, ?_⟩
      intro e he
      rcases GoMap.mem_set he with rfl | he
      · exact List.nodup_nil
      · exact h.2 e he
  unfold buildStep
  refine ⟨GoMap.WF_set hens.1 _ _, ?_⟩
  intro e he
  rcases GoMap.mem_set he with rfl | he
  · apply GoMap.WF_set
    cases hg : GoMap.get? (if (GoMap.get? m r.ReviewerID).isSome then m
        else GoMap.set m r.ReviewerID []) r.ReviewerID with
    | none => exact List.nodup_nil
    | some row => exact rowsWF_get? hens.2 hg
  · exact hens.2 e he

theorem WF_buildFold (products : List Product) :
    ∀ (m : Matrix), m.WF ∧ RowsWF m →
      (products.foldl buildStep m).WF ∧ RowsWF (products.foldl buildStep m) := by
  induction products with
  | nil => intro m h; exact h
  | cons r rest ih => intro m h; exact ih _ (WF_buildStep h r)

/-- C11: for every sequence of rating records `buildUserItemMatrix` returns a matrix (a map of
maps, keys distinct) whose users are exactly the reviewer ids of the sequence, whose row for a
user `u` holds exactly the product ids rated by `u`, and whose value for `u` and `p` is the
stars of the last record of the sequence with reviewer `u` and product `p`. -/
theorem buildUserItemMatrix_spec (products : List Product) :
    (buildUserItemMatrix products).WF ∧ RowsWF (buildUserItemMatrix products) ∧
    (∀ u, u ∈ (buildUserItemMatrix products).keys ↔ ∃ r ∈ products, r.ReviewerID = u) ∧
    (∀ u row, (buildUserItemMatrix products).get? u = some row →
      ∀ p, p ∈ row.keys ↔ ∃ r ∈ products, r.ReviewerID = u ∧ r.ProductID = p) ∧
    (∀ u p, entry (buildUserItemMatrix products) u p =
      ((recordsOf products u p).getLast?).map Product.Stars) := by
  have hwf := WF_buildFold products [] ⟨List.nodup_nil, fun e he => by simp at he⟩
  have hentry : ∀ u p, entry (buildUserItemMatrix products) u p =
      ((recordsOf products u p).getLast?).map Product.Stars := by
    intro u p
    unfold buildUserItemMatrix
    rw [entry_buildFold]
    cases ((recordsOf products u p).getLast?).map Product.Stars <;> simp [entry, GoMap.get?]
  refine ⟨hwf.1, hwf.2, ?_, ?_, hentry⟩
  · intro u
    have h := get?_buildFold_isSome products [] u
    rw [GoMap.mem_keys_iff, ← Option.isSome_iff_exists]
    unfold buildUserItemMatrix
    rw [h]
    simp [GoMap.get?]
  · intro u row hrow p
    have h := hentry u p
    unfold entry at h
    rw [hrow] at h
    rw [GoMap.mem_keys_iff, ← Option.isSome_iff_exists]
    have h' : GoMap.get? row p = ((recordsOf products u p).getLast?).map Product.Stars := h
    rw [h', Option.isSome_map', List.getLast?_isSome]
    unfold recordsOf
    constructor
    · intro hne
      obtain ⟨r, hr⟩ := List.exists_mem_of_ne_nil _ hne
      rw [List.mem_filter] at hr
      exact ⟨r, hr.1, by simpa using hr.2⟩
    · rintro ⟨r, hr, hc⟩
      exact List.ne_nil_of_mem (List.mem_filter.2 ⟨hr, by simpa using hc⟩)

/-- A later record of the same reviewer and product overwrites the earlier one: the two records
of `u1` for `p1` leave the stars of the second. -/
theorem buildUserItemMatrix_overwrite :
    buildUserItemMatrix
        [⟨"u1", "p1", .fin 5, "books"⟩, ⟨"u2", "p1", .fin 4, "books"⟩,
         ⟨"u1", "p2", .fin 3, "toys"⟩, ⟨"u1", "p1", .fin 1, "books"⟩] =
      [("u1", [("p1", .fin 1), ("p2", .fin 3)]), ("u2", [("p1", .fin 4)])] := by
  with_unfolding_all rfl

end TFConcurrente
